import Mathlib

/-!
Verification of the CmdParser command-line parsing engine (`CmdParser.hpp`).

Tokens are modelled as `List Char` (the characters of a `std::string_view`).
Machine integers are modelled as `Int`/`Nat` with explicit range bounds:
the 64-bit accumulators of `std::from_chars` are ranges on `Int`, and each
destination type is a pair of bounds `lo`/`hi`.  Fallible coercions return
`Option`: `none` models `set` returning `false` (storage untouched),
`some v` models a successful write of `v`.
-/

namespace CmdSpec

/-- The characters of a string literal, the working representation of tokens. -/
def chars (s : String) : List Char := s.data

/-- Result codes of `std::from_chars`, as used by the source. -/
inductive Errc
| ok
| invalidArgument
| resultOutOfRange
deriving DecidableEq

/-- `std::numeric_limits<std::int64_t>::min()`. -/
def int64Min : Int := -(2 ^ 63)

/-- `std::numeric_limits<std::int64_t>::max()`. -/
def int64Max : Int := 2 ^ 63 - 1

/-- `std::numeric_limits<std::uint64_t>::max()`. -/
def uint64Max : Nat := 2 ^ 64 - 1

/-- Lowest value of a signed integer type of bit width `w`. -/
def intMin (w : Nat) : Int := -(2 ^ (w - 1))

/-- Greatest value of a signed integer type of bit width `w`. -/
def intMax (w : Nat) : Int := 2 ^ (w - 1) - 1

/-- Greatest value of an unsigned integer type of bit width `w`. -/
def uintMax (w : Nat) : Int := 2 ^ w - 1

/-- Numeric value of an alphanumeric character, as `std::from_chars` reads
digits: `0`-`9`, then letters starting at 10, case-insensitively. -/
def charDigitVal (c : Char) : Option Nat :=
  if '0' ≤ c ∧ c ≤ '9' then some (c.toNat - ('0').toNat)
  else if 'a' ≤ c ∧ c ≤ 'z' then some (c.toNat - ('a').toNat + 10)
  else if 'A' ≤ c ∧ c ≤ 'Z' then some (c.toNat - ('A').toNat + 10)
  else none

/-- A digit of the given base, in the sense of `std::from_chars`. -/
def digitVal (base : Nat) (c : Char) : Option Nat :=
  match charDigitVal c with
  | some v => if v < base then some v else none
  | none => none

/-- `true` when `c` is a digit of `base`. -/
def isDigitOf (base : Nat) (c : Char) : Bool := (digitVal base c).isSome

/-- Value of a digit string, most significant digit first. -/
def natOfDigits (base : Nat) (ds : List Char) : Nat :=
  ds.foldl (fun acc c => acc * base + ((digitVal base c).getD 0)) 0

/-- `std::from_chars` into `std::int64_t` at the given base: an optional
leading minus sign, then a maximal nonempty run of digits; trailing
characters are ignored.  No digits is `invalid_argument`; a represented
value outside the 64-bit range is `result_out_of_range` (the out-value is
unused by the source in the error cases). -/
def fromCharsSigned (input : List Char) (base : Nat) : Errc × Int :=
  if input.head? = some '-' then
    if ((input.drop 1).takeWhile (isDigitOf base)).isEmpty then (Errc.invalidArgument, 0)
    else if -(natOfDigits base ((input.drop 1).takeWhile (isDigitOf base)) : Int) < int64Min ∨
        int64Max < -(natOfDigits base ((input.drop 1).takeWhile (isDigitOf base)) : Int) then
      (Errc.resultOutOfRange, 0)
    else (Errc.ok, -(natOfDigits base ((input.drop 1).takeWhile (isDigitOf base)) : Int))
  else
    if (input.takeWhile (isDigitOf base)).isEmpty then (Errc.invalidArgument, 0)
    else if (natOfDigits base (input.takeWhile (isDigitOf base)) : Int) < int64Min ∨
        int64Max < (natOfDigits base (input.takeWhile (isDigitOf base)) : Int) then
      (Errc.resultOutOfRange, 0)
    else (Errc.ok, (natOfDigits base (input.takeWhile (isDigitOf base)) : Int))

/-- `std::from_chars` into `std::uint64_t`: as `fromCharsSigned` but a
minus sign is not part of the pattern for unsigned destinations. -/
def fromCharsUnsigned (input : List Char) (base : Nat) : Errc × Nat :=
  if (input.takeWhile (isDigitOf base)).isEmpty then (Errc.invalidArgument, 0)
  else if uint64Max < natOfDigits base (input.takeWhile (isDigitOf base)) then
    (Errc.resultOutOfRange, 0)
  else (Errc.ok, natOfDigits base (input.takeWhile (isDigitOf base)))

/-- The numeric-string shapes recognized by `getNumericStringType`. -/
inductive NumericStringType
| general
| hex
| negativeHex
deriving DecidableEq

/-- One of the two characters the case-insensitive compare against `x` accepts. -/
def isHexMark (c : Char) : Bool := c = 'x' ∨ c = 'X'

/-- `CmdParser::getNumericStringType`: only inputs longer than two characters
can have the `0x` / `-0x` shapes (compared case-insensitively). -/
def getNumericStringType (input : List Char) : NumericStringType :=
  if input.length ≤ 2 then NumericStringType.general
  else
    match input with
    | '0' :: c :: _ => if isHexMark c then NumericStringType.hex else NumericStringType.general
    | '-' :: '0' :: c :: _ =>
        if isHexMark c then NumericStringType.negativeHex else NumericStringType.general
    | _ => NumericStringType.general

/-- `CmdParser::getNegativeHexView`: rewrite `-0x<digits>` into `-<digits>`
through a 64-byte buffer (the copy truncates to 62 digit characters;
faithful for inputs shorter than 66 characters). -/
def getNegativeHexView (input : List Char) : List Char :=
  '-' :: ((input.drop 3).take 62)

/-- `CmdParser::trySetArithmeticResult` for an integer destination with
range `[lo, hi]`.  On `ok`, clamp into the destination's range.  On
`result_out_of_range`, write `hi` when `isPositive` and `lo` otherwise —
the source passes `input[0] == '-'` for `isPositive`. -/
def trySetArithmeticResult (lo hi : Int) (val : Int) (errc : Errc) (isPositive : Bool) :
    Option Int :=
  match errc with
  | Errc.ok => some (if hi < val then hi else if val < lo then lo else val)
  | Errc.resultOutOfRange => some (if isPositive then hi else lo)
  | Errc.invalidArgument => none

/-- `CmdParser::trySetSignedInteger` for a signed destination with range
`[lo, hi]`: classify the shape, strip hex prefixes, parse through the
signed 64-bit accumulator, then `trySetArithmeticResult`. -/
def trySetSignedInteger (lo hi : Int) (input : List Char) : Option Int :=
  match getNumericStringType input with
  | NumericStringType.general =>
      let r := fromCharsSigned input 10
      trySetArithmeticResult lo hi r.2 r.1 (decide (input.head? = some '-'))
  | NumericStringType.hex =>
      let rest := input.drop 2
      if rest.isEmpty then none
      else
        let r := fromCharsSigned rest 16
        trySetArithmeticResult lo hi r.2 r.1 (decide (rest.head? = some '-'))
  | NumericStringType.negativeHex =>
      let inp := getNegativeHexView input
      let r := fromCharsSigned inp 16
      trySetArithmeticResult lo hi r.2 r.1 (decide (inp.head? = some '-'))

/-- `CmdParser::trySetUnsignedInteger` for an unsigned destination with
range `[0, hi]`: the `-0x` shape is rejected outright; otherwise parse
through the unsigned 64-bit accumulator. -/
def trySetUnsignedInteger (hi : Int) (input : List Char) : Option Int :=
  match getNumericStringType input with
  | NumericStringType.general =>
      let r := fromCharsUnsigned input 10
      trySetArithmeticResult 0 hi (r.2 : Int) r.1 (decide (input.head? = some '-'))
  | NumericStringType.hex =>
      let rest := input.drop 2
      if rest.isEmpty then none
      else
        let r := fromCharsUnsigned rest 16
        trySetArithmeticResult 0 hi (r.2 : Int) r.1 (decide (rest.head? = some '-'))
  | NumericStringType.negativeHex => none

/-- ASCII `::isupper`. -/
def isUpperAscii (c : Char) : Bool := 'A' ≤ c ∧ c ≤ 'Z'

/-- The per-character lower-casing `trySetBool` applies:
`::isupper(c) ? ::tolower(c) : c`. -/
def lowerAscii (c : Char) : Char :=
  if isUpperAscii c then Char.ofNat (c.toNat + 32) else c

/-- `CmdParser::TrueStrings`. -/
def TrueStrings : List (List Char) :=
  [chars ("true"), chars ("t"), chars ("yes"), chars ("y"), chars ("1")]

/-- `CmdParser::FalseStrings`. -/
def FalseStrings : List (List Char) :=
  [chars ("false"), chars ("f"), chars ("no"), chars ("n"), chars ("0")]

/-- `CmdParser::trySetBool`: lower-case the token ASCII-wise, then compare
against the fixed keyword sets. -/
def trySetBool (input : List Char) : Option Bool :=
  let lower := input.map lowerAscii
  if lower ∈ TrueStrings then some true
  else if lower ∈ FalseStrings then some false
  else none

/-- The signed 64-bit accumulator value `trySetSignedInteger` hands to
`trySetArithmeticResult`: shape classification, hex-prefix stripping, then
`std::from_chars` at the matching base. -/
def signedAccum (input : List Char) : Errc × Int :=
  match getNumericStringType input with
  | NumericStringType.general => fromCharsSigned input 10
  | NumericStringType.hex => fromCharsSigned (input.drop 2) 16
  | NumericStringType.negativeHex => fromCharsSigned (getNegativeHexView input) 16

/-- The unsigned 64-bit accumulator value `trySetUnsignedInteger` hands to
`trySetArithmeticResult` (the `-0x` shape never reaches the accumulator). -/
def unsignedAccum (input : List Char) : Errc × Nat :=
  match getNumericStringType input with
  | NumericStringType.general => fromCharsUnsigned input 10
  | NumericStringType.hex => fromCharsUnsigned (input.drop 2) 16
  | NumericStringType.negativeHex => (Errc.invalidArgument, 0)

/-! ## Registry and storage model

Each registered entry owns one storage cell (the C++ holds a reference to a
distinct caller-owned location; `set` writes only through that reference, so
folding the cell into the entry is faithful).  `Optional<T>` storage is an
`Option`-cell that becomes engaged on the first successful coercion. -/

/-- A typed value held in caller storage. -/
inductive Value
| vb (b : Bool)
| vi (n : Int)
| vc (c : Char)
| vs (s : List Char)
deriving DecidableEq

/-- The coercion variant of a valued argument.  Integer destinations carry
their range; `chr` is the dedicated single-character rule. -/
inductive ArgKind
| bool
| sint (lo hi : Int)
| uint (hi : Int)
| chr
| str
deriving DecidableEq

/-- Caller storage bound to a valued argument: plain storage, or
`std::optional` storage that starts unset. -/
inductive ArgCell
| plain (v : Value)
| opt (v : Option Value)
deriving DecidableEq

/-- A registered flag (`CmdParser::FlagArg`): keys, the default captured at
registration, and the bound boolean cell. -/
structure Flag where
  charKey : Option Char
  wordKey : Option (List Char)
  defaultVal : Bool
  cell : Bool
deriving DecidableEq

/-- A registered valued argument (`CmdParser::Arg` subclasses). -/
structure ValArg where
  charKey : Option Char
  wordKey : Option (List Char)
  kind : ArgKind
  cell : ArgCell
deriving DecidableEq

/-- `CmdParser::trySetArithmetic`, `trySetBool` and `setStringType`
dispatched by variant: the pure text-to-value coercion of one token.
The empty-token guard and the single-character rule live in
`trySetArithmetic` in the source. -/
def coerceValue : ArgKind → List Char → Option Value
| ArgKind.bool, input => (trySetBool input).map Value.vb
| ArgKind.sint lo hi, input =>
    if input.isEmpty then none else (trySetSignedInteger lo hi input).map Value.vi
| ArgKind.uint hi, input =>
    if input.isEmpty then none else (trySetUnsignedInteger hi input).map Value.vi
| ArgKind.chr, input =>
    if input.length = 1 then (input.head?).map Value.vc else none
| ArgKind.str, input => some (Value.vs input)

/-- Writing a coerced value into bound storage (engages optional storage). -/
def writeCell : ArgCell → Value → ArgCell
| ArgCell.plain _, v => ArgCell.plain v
| ArgCell.opt _, v => ArgCell.opt (some v)

/-- `Arg::set` for a valued argument: `none` models `set` returning `false`
with the cell untouched. -/
def applyCoerce (a : ValArg) (input : List Char) : Option ValArg :=
  (coerceValue a.kind input).map (fun v => { a with cell := writeCell a.cell v })

/-- `FlagArg::set`: write the negation of the registration-time default. -/
def setFlag (f : Flag) : Flag := { f with cell := !f.defaultVal }

/-- `std::find_if` over `flags_` by char key followed by `it->set(...)`:
toggle the first flag whose char key matches, `none` when no flag matches. -/
def setFirstFlagChar : List Flag → Char → Option (List Flag)
| [], _ => none
| f :: fs, c =>
    if f.charKey = some c then some (setFlag f :: fs)
    else (setFirstFlagChar fs c).map (fun fs2 => f :: fs2)

/-- `std::find_if` over `flags_` by word key followed by `it->set(...)`. -/
def setFirstFlagWord : List Flag → List Char → Option (List Flag)
| [], _ => none
| f :: fs, w =>
    if f.wordKey = some w then some (setFlag f :: fs)
    else (setFirstFlagWord fs w).map (fun fs2 => f :: fs2)

/-- Outcome of resolving a valued argument and invoking its coercion. -/
inductive SetOutcome
| notFound
| failed
| updated (args : List ValArg)
deriving DecidableEq

/-- `std::find_if` over `args_` by word key followed by `set(param)`:
`notFound` when no entry matches, `failed` when the coercion fails
(all cells untouched), `updated` with the new registry otherwise. -/
def setFirstArgWord : List ValArg → List Char → List Char → SetOutcome
| [], _, _ => SetOutcome.notFound
| a :: tl, w, param =>
    if a.wordKey = some w then
      match applyCoerce a param with
      | some a2 => SetOutcome.updated (a2 :: tl)
      | none => SetOutcome.failed
    else
      match setFirstArgWord tl w param with
      | SetOutcome.updated tl2 => SetOutcome.updated (a :: tl2)
      | r => r

/-- `std::find_if` over `args_` by char key followed by `set(param)`. -/
def setFirstArgChar : List ValArg → Char → List Char → SetOutcome
| [], _, _ => SetOutcome.notFound
| a :: tl, c, param =>
    if a.charKey = some c then
      match applyCoerce a param with
      | some a2 => SetOutcome.updated (a2 :: tl)
      | none => SetOutcome.failed
    else
      match setFirstArgChar tl c param with
      | SetOutcome.updated tl2 => SetOutcome.updated (a :: tl2)
      | r => r

/-! ## Tokenizer / dispatcher model (`CmdParser::parse`) -/

/-- `CmdParser::CharArgDelim`. -/
def charArgDelim : Char := '-'

/-- `CmdParser::WordArgDelim`. -/
def wordArgDelim : List Char := ['-', '-']

/-- `CmdParser::ParamDelim`. -/
def paramDelim : Char := '='

/-- `CmdParser::splitCmd`: the command is everything before the first `=`;
the attached parameter (possibly empty) is everything after it, `none`
when no `=` occurs. -/
def splitCmd (input : List Char) : List Char × Option (List Char) :=
  if (input.takeWhile (fun c => c ≠ paramDelim)).length = input.length then
    (input.takeWhile (fun c => c ≠ paramDelim), none)
  else
    (input.takeWhile (fun c => c ≠ paramDelim),
      some (input.drop ((input.takeWhile (fun c => c ≠ paramDelim)).length + 1)))

/-- `cmd::ErrorResult`; a handler returning `void` always continues, so it
is modelled as the constantly-`Continue` handler. -/
inductive ErrorResult
| Terminate
| Continue
deriving DecidableEq

/-- The error-message text of `Detail::MakeError` at each report site. -/
def termErrMsg (input : List Char) : List Char :=
  chars ("Unexpected termination. Expected parameter for command \"") ++ input ++ chars ("\".")

/-- "Unexpected format for argument ... with parameter ...". -/
def formatErrMsg (cmd param : List Char) : List Char :=
  chars ("Unexpected format for argument \"") ++ cmd ++
    chars ("\" with parameter \"") ++ param ++ chars ("\".")

/-- "Unrecognized command ..." (only under `error_on_unknown_arg_policy`). -/
def unknownCmdErrMsg (cmd : List Char) : List Char :=
  chars ("Unrecognized command \"") ++ cmd ++ chars ("\".")

/-- "Unrecognized flag ..." (only under `error_on_unknown_arg_policy`). -/
def unknownFlagErrMsg (c : Char) : List Char :=
  chars ("Unrecognized flag \"") ++ [c] ++ chars ("\".")

/-- "Command ... has an unexpected format.". -/
def cmdFormatErrMsg (input : List Char) : List Char :=
  chars ("Command \"") ++ input ++ chars ("\" has an unexpected format.")

/-- "Unrecognized command format ...". -/
def unrecognizedFormatErrMsg (input : List Char) : List Char :=
  chars ("Unrecognized command format \"") ++ input ++ chars ("\".")

/-- The mutable state of one `parse` call: the two entry vectors (with
their bound storage cells), the `success` boolean, and the trace of errors
passed to the handler so far, in invocation order. -/
structure PState where
  flags : List Flag
  args : List ValArg
  success : Bool
  errs : List (List Char)
deriving DecidableEq

/-- Result of processing one token of the loop in `parse`: an early
`return false` (`halt`), or continuation, with `dropNext` recording that
the next token was consumed as this token's detached parameter (`++i`). -/
inductive StepRes
| halt (st : PState)
| cont (st : PState) (dropNext : Bool)
deriving DecidableEq

/-- The state carried by a step result. -/
def stepState : StepRes → PState
| StepRes.halt st => st
| StepRes.cont st _ => st

/-- Whether the step consumed the following token as a parameter. -/
def stepDrop : StepRes → Bool
| StepRes.halt _ => false
| StepRes.cont _ d => d

/-- `reportErrorAndContinue`: mark the parse failed, hand the error to the
handler once, and abort the scan when the handler answers `Terminate`. -/
def reportStep (handler : List Char → ErrorResult) (st : PState) (e : List Char)
    (dropNext : Bool) : StepRes :=
  let st2 : PState := { st with success := false, errs := st.errs ++ [e] }
  if handler e = ErrorResult.Continue then StepRes.cont st2 dropNext else StepRes.halt st2

/-- The tail of the long-form branch once the parameter is in hand: resolve
the word key among `args_`, coerce, and report failures per policy. -/
def longFinish (ru : Bool) (handler : List Char → ErrorResult) (st : PState)
    (cmd param : List Char) (dropNext : Bool) : StepRes :=
  match setFirstArgWord st.args cmd param with
  | SetOutcome.updated args2 => StepRes.cont { st with args := args2 } dropNext
  | SetOutcome.failed => reportStep handler st (formatErrMsg cmd param) dropNext
  | SetOutcome.notFound =>
      if ru then reportStep handler st (unknownCmdErrMsg cmd) dropNext
      else StepRes.cont st dropNext

/-- The tail of the short-form branch once the parameter is in hand: the
isolated key must be exactly one character, then resolve by char key. -/
def shortFinish (ru : Bool) (handler : List Char → ErrorResult) (st : PState)
    (input cmd param : List Char) (dropNext : Bool) : StepRes :=
  match cmd with
  | [c] =>
      match setFirstArgChar st.args c param with
      | SetOutcome.updated args2 => StepRes.cont { st with args := args2 } dropNext
      | SetOutcome.failed => reportStep handler st (formatErrMsg cmd param) dropNext
      | SetOutcome.notFound =>
          if ru then reportStep handler st (unknownCmdErrMsg cmd) dropNext
          else StepRes.cont st dropNext
  | _ => reportStep handler st (cmdFormatErrMsg input) dropNext

/-- Result of the chained-flag scan over the characters after the short
delimiter: updated flags, whether any flag matched, the at-most-one
"Unrecognized flag" error it may report, and whether the handler aborted. -/
structure ScanRes where
  flags : List Flag
  isFlag : Bool
  err : Option (List Char)
  terminated : Bool
deriving DecidableEq

/-- The `for (size_t k = 1; ...)` chained-flag loop of `parse`: toggle each
character's flag left to right, stopping at the first character that is not
a registered flag's char key; at the stop, report "Unrecognized flag" only
when the policy asks for it and at least one flag already matched. -/
def scanFlags (ru : Bool) (handler : List Char → ErrorResult) :
    List Flag → List Char → Bool → ScanRes
| flags, [], isFlag => ⟨flags, isFlag, none, false⟩
| flags, c :: cs, isFlag =>
    match setFirstFlagChar flags c with
    | some flags2 => scanFlags ru handler flags2 cs true
    | none =>
        if ru ∧ isFlag then
          let e := unknownFlagErrMsg c
          ⟨flags, isFlag, some e, decide (handler e = ErrorResult.Terminate)⟩
        else ⟨flags, isFlag, none, false⟩

/-- One iteration of the token loop of `CmdParser::parse` on `input`, with
`next?` the following token if any. -/
def parseStep (ru : Bool) (handler : List Char → ErrorResult) (st : PState)
    (input : List Char) (next? : Option (List Char)) : StepRes :=
  if 2 < input.length ∧ input.take 2 = wordArgDelim then
    let sp := splitCmd (input.drop 2)
    match sp.2 with
    | some param => longFinish ru handler st sp.1 param false
    | none =>
        match setFirstFlagWord st.flags sp.1 with
        | some flags2 => StepRes.cont { st with flags := flags2 } false
        | none =>
            match next? with
            | none =>
                StepRes.halt { st with success := false, errs := st.errs ++ [termErrMsg input] }
            | some param => longFinish ru handler st sp.1 param true
  else if 1 < input.length ∧ input.head? = some charArgDelim then
    let sc := scanFlags ru handler st.flags (input.drop 1) false
    match sc.err with
    | some e =>
        if sc.terminated then
          StepRes.halt { st with flags := sc.flags, success := false, errs := st.errs ++ [e] }
        else
          StepRes.cont { st with flags := sc.flags, success := false, errs := st.errs ++ [e] }
            false
    | none =>
        if sc.isFlag then StepRes.cont { st with flags := sc.flags } false
        else
          let sp := splitCmd (input.drop 1)
          match sp.2 with
          | some param => shortFinish ru handler st input sp.1 param false
          | none =>
              match next? with
              | none =>
                  StepRes.halt
                    { st with success := false, errs := st.errs ++ [termErrMsg input] }
              | some param => shortFinish ru handler st input sp.1 param true
  else
    reportStep handler st (unrecognizedFormatErrMsg input) false

/-- The token loop of `CmdParser::parse`.  A step never answers
`dropNext = true` with an empty remainder (it only consumes a `next?` that
exists), so that branch returns the state unchanged. -/
def parseLoop (ru : Bool) (handler : List Char → ErrorResult) :
    PState → List (List Char) → PState
| st, [] => st
| st, input :: rest =>
    match parseStep ru handler st input rest.head? with
    | StepRes.halt st2 => st2
    | StepRes.cont st2 false => parseLoop ru handler st2 rest
    | StepRes.cont st2 true =>
        match rest with
        | [] => st2
        | _ :: rest2 => parseLoop ru handler st2 rest2

/-- `CmdParser::parse` over the tokens after `argv[0]`: start with
`success = true` and an empty error trace.  `ru` selects
`error_on_unknown_arg_policy`; the returned `success` is the boolean
result of `parse`, and `errs` is the sequence of errors handed to the
handler, in invocation order. -/
def parse (ru : Bool) (handler : List Char → ErrorResult) (flags : List Flag)
    (args : List ValArg) (tokens : List (List Char)) : PState :=
  parseLoop ru handler ⟨flags, args, true, []⟩ tokens

/-- Whether `c` is the char key of some registered flag (the predicate the
chained-flag scan tests one character at a time). -/
def hasFlagChar (flags : List Flag) (c : Char) : Bool :=
  flags.any (fun f => f.charKey = some c)

/-- A syntactic over-approximation of every place `parse` can toggle the
flag `f`: its char key occurring anywhere after a leading short delimiter,
or the token being exactly the long form of its word key. -/
def flagMentioned (f : Flag) (t : List Char) : Bool :=
  (match f.charKey with
   | some c => decide (t.head? = some charArgDelim) && decide (c ∈ t.drop 1)
   | none => false)
  ||
  (match f.wordKey with
   | some w => decide (t = wordArgDelim ++ w)
   | none => false)

/-- A syntactic over-approximation of every place `parse` can resolve the
valued argument `a`: the token's command part (before any `=`) equalling
one of its keys under the matching delimiter shape. -/
def argMentioned (a : ValArg) (t : List Char) : Bool :=
  (match a.charKey with
   | some c =>
       decide (t.head? = some charArgDelim) && decide ((splitCmd (t.drop 1)).1 = [c])
   | none => false)
  ||
  (match a.wordKey with
   | some w =>
       decide (2 < t.length) && decide (t.take 2 = wordArgDelim) &&
         decide ((splitCmd (t.drop 2)).1 = w)
   | none => false)

/-! ## Helper lemmas -/

theorem intMin_le_intMax (w : Nat) : intMin w ≤ intMax w := by
  unfold intMin intMax
  have h : (0 : Int) < 2 ^ (w - 1) := by positivity
  omega

theorem fromCharsSigned_nil (base : Nat) :
    fromCharsSigned [] base = (Errc.invalidArgument, 0) := rfl

theorem trySetSigned_of_accum_ok (lo hi v : Int) (input : List Char)
    (h : signedAccum input = (Errc.ok, v)) :
    trySetSignedInteger lo hi input =
      some (if hi < v then hi else if v < lo then lo else v) := by
  unfold signedAccum at h
  unfold trySetSignedInteger
  cases hg : getNumericStringType input <;> rw [hg] at h
  case general =>
    replace h : fromCharsSigned input 10 = (Errc.ok, v) := h
    show trySetArithmeticResult lo hi (fromCharsSigned input 10).2
      (fromCharsSigned input 10).1 (decide (input.head? = some '-')) = _
    rw [h]
    rfl
  case hex =>
    replace h : fromCharsSigned (input.drop 2) 16 = (Errc.ok, v) := h
    by_cases he : (input.drop 2).isEmpty
    · rw [List.isEmpty_iff.mp he, fromCharsSigned_nil] at h
      simp at h
    · show (if (input.drop 2).isEmpty = true then none
        else trySetArithmeticResult lo hi (fromCharsSigned (input.drop 2) 16).2
          (fromCharsSigned (input.drop 2) 16).1
          (decide ((input.drop 2).head? = some '-'))) = _
      simp only [he, if_false, Bool.false_eq_true]
      rw [h]
      rfl
  case negativeHex =>
    replace h : fromCharsSigned (getNegativeHexView input) 16 = (Errc.ok, v) := h
    show trySetArithmeticResult lo hi (fromCharsSigned (getNegativeHexView input) 16).2
      (fromCharsSigned (getNegativeHexView input) 16).1
      (decide ((getNegativeHexView input).head? = some '-')) = _
    rw [h]
    rfl

theorem trySetUnsigned_of_accum_ok (hi : Int) (u : Nat) (input : List Char)
    (h : unsignedAccum input = (Errc.ok, u)) :
    trySetUnsignedInteger hi input =
      some (if hi < (u : Int) then hi else if (u : Int) < 0 then 0 else (u : Int)) := by
  unfold unsignedAccum at h
  unfold trySetUnsignedInteger
  cases hg : getNumericStringType input <;> rw [hg] at h
  case general =>
    replace h : fromCharsUnsigned input 10 = (Errc.ok, u) := h
    show trySetArithmeticResult 0 hi ((fromCharsUnsigned input 10).2 : Int)
      (fromCharsUnsigned input 10).1 (decide (input.head? = some '-')) = _
    rw [h]
    rfl
  case hex =>
    replace h : fromCharsUnsigned (input.drop 2) 16 = (Errc.ok, u) := h
    by_cases he : (input.drop 2).isEmpty
    · rw [List.isEmpty_iff.mp he] at h
      simp [fromCharsUnsigned] at h
    · show (if (input.drop 2).isEmpty = true then none
        else trySetArithmeticResult 0 hi ((fromCharsUnsigned (input.drop 2) 16).2 : Int)
          (fromCharsUnsigned (input.drop 2) 16).1
          (decide ((input.drop 2).head? = some '-'))) = _
      simp only [he, if_false, Bool.false_eq_true]
      rw [h]
      rfl
  case negativeHex =>
    replace h : (Errc.invalidArgument, 0) = (Errc.ok, u) := h
    simp at h

theorem takeWhile_digit_run (p : Char → Bool) (ds tail : List Char)
    (h1 : ∀ c ∈ ds, p c = true)
    (h2 : tail.head?.all (fun c => ! p c) = true) :
    (ds ++ tail).takeWhile p = ds := by
  induction ds with
  | nil =>
      cases tail with
      | nil => rfl
      | cons t ts =>
          simp only [List.head?_cons, Option.all_some] at h2
          have hpt : p t = false := by simpa using h2
          simp [List.takeWhile_cons, hpt]
  | cons d ds2 ih =>
      have hd : p d = true := h1 d (by simp)
      simp [List.takeWhile_cons, hd, ih (fun c hc => h1 c (by simp [hc]))]

theorem isDigitOf_ne_minus (base : Nat) (c : Char) (h : isDigitOf base c = true) :
    c ≠ '-' := by
  intro hc
  subst hc
  have hnone : charDigitVal '-' = none := by decide
  simp [isDigitOf, digitVal, hnone] at h

theorem fromCharsSigned_digit_run (base : Nat) (ds tail : List Char)
    (hne : ds ≠ [])
    (hds : ∀ c ∈ ds, isDigitOf base c = true)
    (htail : tail.head?.all (fun c => ! isDigitOf base c) = true)
    (hbound : (natOfDigits base ds : Int) ≤ int64Max) :
    fromCharsSigned (ds ++ tail) base = (Errc.ok, (natOfDigits base ds : Int)) := by
  obtain ⟨d, ds2, rfl⟩ : ∃ d ds2, ds = d :: ds2 := by
    cases ds with
    | nil => exact absurd rfl hne
    | cons d ds2 => exact ⟨d, ds2, rfl⟩
  have hd : isDigitOf base d = true := hds d (by simp)
  have hdm : d ≠ '-' := isDigitOf_ne_minus base d hd
  have hhead : ¬ ((d :: ds2 ++ tail).head? = some '-') := by
    simp only [List.cons_append, List.head?_cons, Option.some.injEq]
    exact hdm
  have htw : (d :: ds2 ++ tail).takeWhile (isDigitOf base) = d :: ds2 :=
    takeWhile_digit_run (isDigitOf base) (d :: ds2) tail hds htail
  unfold fromCharsSigned
  rw [if_neg hhead, htw]
  have hemp : (d :: ds2).isEmpty = false := rfl
  have hmin : ¬ ((natOfDigits base (d :: ds2) : Int) < int64Min) := by
    have h0 : (0 : Int) ≤ (natOfDigits base (d :: ds2) : Int) := Int.natCast_nonneg _
    have hneg : int64Min < 0 := by decide
    omega
  simp [hemp, hmin, not_lt.mpr hbound]

theorem fromCharsUnsigned_digit_run (base : Nat) (ds tail : List Char)
    (hne : ds ≠ [])
    (hds : ∀ c ∈ ds, isDigitOf base c = true)
    (htail : tail.head?.all (fun c => ! isDigitOf base c) = true)
    (hbound : natOfDigits base ds ≤ uint64Max) :
    fromCharsUnsigned (ds ++ tail) base = (Errc.ok, natOfDigits base ds) := by
  unfold fromCharsUnsigned
  rw [takeWhile_digit_run (isDigitOf base) ds tail hds htail]
  have hne2 : ds.isEmpty = false := by
    cases ds with
    | nil => exact absurd rfl hne
    | cons d ds2 => rfl
  simp [hne2, not_lt.mpr hbound]

theorem fromCharsUnsigned_nil (base : Nat) :
    fromCharsUnsigned [] base = (Errc.invalidArgument, 0) := rfl

theorem reportStep_state (handler : List Char → ErrorResult) (st : PState) (e : List Char)
    (d : Bool) :
    stepState (reportStep handler st e d) =
      { st with success := false, errs := st.errs ++ [e] } := by
  unfold reportStep
  by_cases h : handler e = ErrorResult.Continue <;> simp [h, stepState]

theorem parseStep_long (ru : Bool) (handler : List Char → ErrorResult) (st : PState)
    (input : List Char) (next? : Option (List Char))
    (h : 2 < input.length ∧ input.take 2 = wordArgDelim) :
    parseStep ru handler st input next? =
      (match (splitCmd (input.drop 2)).2 with
       | some param => longFinish ru handler st (splitCmd (input.drop 2)).1 param false
       | none =>
          match setFirstFlagWord st.flags (splitCmd (input.drop 2)).1 with
          | some flags2 => StepRes.cont { st with flags := flags2 } false
          | none =>
              match next? with
              | none =>
                  StepRes.halt
                    { st with success := false, errs := st.errs ++ [termErrMsg input] }
              | some param => longFinish ru handler st (splitCmd (input.drop 2)).1 param true) := by
  unfold parseStep
  rw [if_pos h]

theorem parseStep_short (ru : Bool) (handler : List Char → ErrorResult) (st : PState)
    (input : List Char) (next? : Option (List Char)) (sc : ScanRes)
    (hsc : scanFlags ru handler st.flags (input.drop 1) false = sc)
    (h1 : ¬ (2 < input.length ∧ input.take 2 = wordArgDelim))
    (h2 : 1 < input.length ∧ input.head? = some charArgDelim) :
    parseStep ru handler st input next? =
      (match sc.err with
       | some e =>
          if sc.terminated then
            StepRes.halt { st with flags := sc.flags, success := false, errs := st.errs ++ [e] }
          else
            StepRes.cont { st with flags := sc.flags, success := false, errs := st.errs ++ [e] }
              false
       | none =>
          if sc.isFlag then
            StepRes.cont { st with flags := sc.flags } false
          else
            match (splitCmd (input.drop 1)).2 with
            | some param => shortFinish ru handler st input (splitCmd (input.drop 1)).1 param false
            | none =>
                match next? with
                | none =>
                    StepRes.halt
                      { st with success := false, errs := st.errs ++ [termErrMsg input] }
                | some param =>
                    shortFinish ru handler st input (splitCmd (input.drop 1)).1 param true) := by
  subst hsc
  unfold parseStep
  rw [if_neg h1, if_pos h2]

theorem parseStep_other (ru : Bool) (handler : List Char → ErrorResult) (st : PState)
    (input : List Char) (next? : Option (List Char))
    (h1 : ¬ (2 < input.length ∧ input.take 2 = wordArgDelim))
    (h2 : ¬ (1 < input.length ∧ input.head? = some charArgDelim)) :
    parseStep ru handler st input next? =
      reportStep handler st (unrecognizedFormatErrMsg input) false := by
  unfold parseStep
  rw [if_neg h1, if_neg h2]

/-- One-step error accounting: a step either leaves the trace and the
success bit alone, or appends exactly one error and clears success. -/
def StepKeepsOrReports (st : PState) (r : StepRes) : Prop :=
  ((stepState r).errs = st.errs ∧ (stepState r).success = st.success) ∨
    ∃ e, (stepState r).errs = st.errs ++ [e] ∧ (stepState r).success = false

theorem reportStep_reports (handler : List Char → ErrorResult) (st : PState) (e : List Char)
    (d : Bool) : StepKeepsOrReports st (reportStep handler st e d) := by
  right
  exact ⟨e, by rw [reportStep_state], by rw [reportStep_state]⟩

theorem longFinish_keeps_or_reports (ru : Bool) (handler : List Char → ErrorResult)
    (st : PState) (cmd param : List Char) (d : Bool) :
    StepKeepsOrReports st (longFinish ru handler st cmd param d) := by
  unfold longFinish
  split
  · left; simp [stepState]
  · exact reportStep_reports handler st _ d
  · split
    · exact reportStep_reports handler st _ d
    · left; simp [stepState]

theorem shortFinish_keeps_or_reports (ru : Bool) (handler : List Char → ErrorResult)
    (st : PState) (input cmd param : List Char) (d : Bool) :
    StepKeepsOrReports st (shortFinish ru handler st input cmd param d) := by
  unfold shortFinish
  split
  · split
    · left; simp [stepState]
    · exact reportStep_reports handler st _ d
    · split
      · exact reportStep_reports handler st _ d
      · left; simp [stepState]
  · exact reportStep_reports handler st _ d

theorem parseStep_keeps_or_reports (ru : Bool) (handler : List Char → ErrorResult)
    (st : PState) (input : List Char) (next? : Option (List Char)) :
    StepKeepsOrReports st (parseStep ru handler st input next?) := by
  by_cases h1 : 2 < input.length ∧ input.take 2 = wordArgDelim
  · rw [parseStep_long ru handler st input next? h1]
    split
    · exact longFinish_keeps_or_reports ru handler st _ _ false
    · split
      · left; simp [stepState]
      · split
        · right
          exact ⟨termErrMsg input, by simp [stepState], by simp [stepState]⟩
        · exact longFinish_keeps_or_reports ru handler st _ _ true
  · by_cases h2 : 1 < input.length ∧ input.head? = some charArgDelim
    · rw [parseStep_short ru handler st input next? _ rfl h1 h2]
      split
      · split
        · rename_i x e heq ht
          right
          exact ⟨e, by simp [stepState], by simp [stepState]⟩
        · rename_i x e heq ht
          right
          exact ⟨e, by simp [stepState], by simp [stepState]⟩
      · split
        · left; simp [stepState]
        · split
          · exact shortFinish_keeps_or_reports ru handler st input _ _ false
          · split
            · right
              exact ⟨termErrMsg input, by simp [stepState], by simp [stepState]⟩
            · exact shortFinish_keeps_or_reports ru handler st input _ _ true
    · rw [parseStep_other ru handler st input next? h1 h2]
      exact reportStep_reports handler st _ false

theorem setFlag_charKey (f : Flag) : (setFlag f).charKey = f.charKey := rfl

theorem setFlag_wordKey (f : Flag) : (setFlag f).wordKey = f.wordKey := rfl

theorem setFlag_cell (f : Flag) : (setFlag f).cell = !f.defaultVal := rfl

theorem setFlag_self (f : Flag) (h : f.cell = !f.defaultVal) : setFlag f = f := by
  cases f
  simp only [setFlag] at *
  simp_all

theorem setFirstFlagChar_isSome (flags : List Flag) (c : Char) :
    (setFirstFlagChar flags c).isSome = hasFlagChar flags c := by
  induction flags with
  | nil => rfl
  | cons f fs ih =>
      unfold setFirstFlagChar hasFlagChar
      by_cases hf : f.charKey = some c
      · simp [hf]
      · simp only [if_neg hf]
        rw [show (Option.map (fun fs2 => f :: fs2) (setFirstFlagChar fs c)).isSome =
            (setFirstFlagChar fs c).isSome from by cases setFirstFlagChar fs c <;> rfl]
        rw [ih]
        simp [hasFlagChar, hf]

theorem setFirstFlagChar_get (flags : List Flag) (c : Char) (flags2 : List Flag)
    (h : setFirstFlagChar flags c = some flags2) (j : Nat) :
    flags2.get? j = flags.get? j ∨
      ∃ f0, flags.get? j = some f0 ∧ f0.charKey = some c ∧
        flags2.get? j = some (setFlag f0) := by
  induction flags generalizing flags2 j with
  | nil => simp [setFirstFlagChar] at h
  | cons f fs ih =>
      unfold setFirstFlagChar at h
      by_cases hf : f.charKey = some c
      · rw [if_pos hf] at h
        injection h with h2
        subst h2
        cases j with
        | zero => right; exact ⟨f, rfl, hf, rfl⟩
        | succ j2 => left; rfl
      · rw [if_neg hf] at h
        rcases Option.map_eq_some'.mp h with ⟨fs2, hfs, heq⟩
        subst heq
        cases j with
        | zero => left; rfl
        | succ j2 =>
            rcases ih fs2 hfs j2 with h1 | ⟨f0, h2, h3, h4⟩
            · left; simpa using h1
            · right; exact ⟨f0, by simpa using h2, h3, by simpa using h4⟩

theorem setFirstFlagChar_get_first (flags : List Flag) (c : Char) (flags2 : List Flag)
    (i : Nat) (f : Flag) (h : setFirstFlagChar flags c = some flags2)
    (hi : flags.get? i = some f) (hf : f.charKey = some c)
    (hfirst : ∀ j g, j < i → flags.get? j = some g → g.charKey ≠ some c) :
    flags2.get? i = some (setFlag f) := by
  induction flags generalizing flags2 i with
  | nil => simp [setFirstFlagChar] at h
  | cons f0 fs ih =>
      unfold setFirstFlagChar at h
      by_cases h0 : f0.charKey = some c
      · rw [if_pos h0] at h
        injection h with h2
        subst h2
        cases i with
        | zero =>
            simp only [List.get?_cons_zero, Option.some.injEq] at hi
            subst hi
            rfl
        | succ i2 =>
            exact absurd h0 (hfirst 0 f0 (Nat.succ_pos i2) rfl)
      · rw [if_neg h0] at h
        rcases Option.map_eq_some'.mp h with ⟨fs2, hfs, heq⟩
        subst heq
        cases i with
        | zero =>
            simp only [List.get?_cons_zero, Option.some.injEq] at hi
            subst hi
            exact absurd hf h0
        | succ i2 =>
            have hfirst2 : ∀ j g, j < i2 → fs.get? j = some g → g.charKey ≠ some c :=
              fun j g hj hg => hfirst (j + 1) g (by omega) (by simpa using hg)
            simpa using ih fs2 i2 hfs (by simpa using hi) hfirst2

theorem setFirstFlagWord_isSome (flags : List Flag) (w : List Char) :
    (setFirstFlagWord flags w).isSome = flags.any (fun f => f.wordKey = some w) := by
  induction flags with
  | nil => rfl
  | cons f fs ih =>
      unfold setFirstFlagWord
      by_cases hf : f.wordKey = some w
      · simp [hf]
      · simp only [if_neg hf]
        rw [show (Option.map (fun fs2 => f :: fs2) (setFirstFlagWord fs w)).isSome =
            (setFirstFlagWord fs w).isSome from by cases setFirstFlagWord fs w <;> rfl]
        rw [ih]
        simp [hf]

theorem setFirstFlagWord_get (flags : List Flag) (w : List Char) (flags2 : List Flag)
    (h : setFirstFlagWord flags w = some flags2) (j : Nat) :
    flags2.get? j = flags.get? j ∨
      ∃ f0, flags.get? j = some f0 ∧ f0.wordKey = some w ∧
        flags2.get? j = some (setFlag f0) := by
  induction flags generalizing flags2 j with
  | nil => simp [setFirstFlagWord] at h
  | cons f fs ih =>
      unfold setFirstFlagWord at h
      by_cases hf : f.wordKey = some w
      · rw [if_pos hf] at h
        injection h with h2
        subst h2
        cases j with
        | zero => right; exact ⟨f, rfl, hf, rfl⟩
        | succ j2 => left; rfl
      · rw [if_neg hf] at h
        rcases Option.map_eq_some'.mp h with ⟨fs2, hfs, heq⟩
        subst heq
        cases j with
        | zero => left; rfl
        | succ j2 =>
            rcases ih fs2 hfs j2 with h1 | ⟨f0, h2, h3, h4⟩
            · left; simpa using h1
            · right; exact ⟨f0, by simpa using h2, h3, by simpa using h4⟩

theorem setFirstFlagWord_get_first (flags : List Flag) (w : List Char) (flags2 : List Flag)
    (i : Nat) (f : Flag) (h : setFirstFlagWord flags w = some flags2)
    (hi : flags.get? i = some f) (hf : f.wordKey = some w)
    (hfirst : ∀ j g, j < i → flags.get? j = some g → g.wordKey ≠ some w) :
    flags2.get? i = some (setFlag f) := by
  induction flags generalizing flags2 i with
  | nil => simp [setFirstFlagWord] at h
  | cons f0 fs ih =>
      unfold setFirstFlagWord at h
      by_cases h0 : f0.wordKey = some w
      · rw [if_pos h0] at h
        injection h with h2
        subst h2
        cases i with
        | zero =>
            simp only [List.get?_cons_zero, Option.some.injEq] at hi
            subst hi
            rfl
        | succ i2 =>
            exact absurd h0 (hfirst 0 f0 (Nat.succ_pos i2) rfl)
      · rw [if_neg h0] at h
        rcases Option.map_eq_some'.mp h with ⟨fs2, hfs, heq⟩
        subst heq
        cases i with
        | zero =>
            simp only [List.get?_cons_zero, Option.some.injEq] at hi
            subst hi
            exact absurd hf h0
        | succ i2 =>
            have hfirst2 : ∀ j g, j < i2 → fs.get? j = some g → g.wordKey ≠ some w :=
              fun j g hj hg => hfirst (j + 1) g (by omega) (by simpa using hg)
            simpa using ih fs2 i2 hfs (by simpa using hi) hfirst2

theorem setFirstFlagChar_hasFlagChar (flags : List Flag) (c : Char) (flags2 : List Flag)
    (h : setFirstFlagChar flags c = some flags2) (d : Char) :
    hasFlagChar flags2 d = hasFlagChar flags d := by
  induction flags generalizing flags2 with
  | nil => simp [setFirstFlagChar] at h
  | cons f fs ih =>
      unfold setFirstFlagChar at h
      by_cases hf : f.charKey = some c
      · rw [if_pos hf] at h
        injection h with h2
        subst h2
        simp [hasFlagChar, setFlag_charKey]
      · rw [if_neg hf] at h
        rcases Option.map_eq_some'.mp h with ⟨fs2, hfs, heq⟩
        subst heq
        simp only [hasFlagChar, List.any_cons]
        rw [show (fs2.any fun g => g.charKey = some d) = (fs.any fun g => g.charKey = some d)
          from ih fs2 hfs]

theorem setFirstArgWord_updated_get (args : List ValArg) (w param : List Char)
    (args2 : List ValArg) (h : setFirstArgWord args w param = SetOutcome.updated args2)
    (j : Nat) (a : ValArg) (ha : args.get? j = some a) (hk : a.wordKey ≠ some w) :
    args2.get? j = some a := by
  induction args generalizing args2 j with
  | nil => simp [setFirstArgWord] at h
  | cons b tl ih =>
      unfold setFirstArgWord at h
      by_cases hb : b.wordKey = some w
      · rw [if_pos hb] at h
        cases hco : applyCoerce b param with
        | none => rw [hco] at h; cases h
        | some b2 =>
            rw [hco] at h
            injection h with h2
            subst h2
            cases j with
            | zero =>
                simp only [List.get?_cons_zero, Option.some.injEq] at ha
                subst ha
                exact absurd hb hk
            | succ j2 => simpa using ha
      · rw [if_neg hb] at h
        cases hrec : setFirstArgWord tl w param with
        | updated tl2 =>
            rw [hrec] at h
            injection h with h2
            subst h2
            cases j with
            | zero => simpa using ha
            | succ j2 => simpa using ih tl2 hrec j2 (by simpa using ha)
        | failed => rw [hrec] at h; cases h
        | notFound => rw [hrec] at h; cases h

theorem setFirstArgChar_updated_get (args : List ValArg) (c : Char) (param : List Char)
    (args2 : List ValArg) (h : setFirstArgChar args c param = SetOutcome.updated args2)
    (j : Nat) (a : ValArg) (ha : args.get? j = some a) (hk : a.charKey ≠ some c) :
    args2.get? j = some a := by
  induction args generalizing args2 j with
  | nil => simp [setFirstArgChar] at h
  | cons b tl ih =>
      unfold setFirstArgChar at h
      by_cases hb : b.charKey = some c
      · rw [if_pos hb] at h
        cases hco : applyCoerce b param with
        | none => rw [hco] at h; cases h
        | some b2 =>
            rw [hco] at h
            injection h with h2
            subst h2
            cases j with
            | zero =>
                simp only [List.get?_cons_zero, Option.some.injEq] at ha
                subst ha
                exact absurd hb hk
            | succ j2 => simpa using ha
      · rw [if_neg hb] at h
        cases hrec : setFirstArgChar tl c param with
        | updated tl2 =>
            rw [hrec] at h
            injection h with h2
            subst h2
            cases j with
            | zero => simpa using ha
            | succ j2 => simpa using ih tl2 hrec j2 (by simpa using ha)
        | failed => rw [hrec] at h; cases h
        | notFound => rw [hrec] at h; cases h

theorem takeWhile_congr_fun (p q : Char → Bool) (l : List Char)
    (h : ∀ e ∈ l, p e = q e) : l.takeWhile p = l.takeWhile q := by
  induction l with
  | nil => rfl
  | cons x xs ih =>
      have hx := h x (by simp)
      cases hq : q x
      · simp [List.takeWhile_cons, hx, hq]
      · simp [List.takeWhile_cons, hx, hq, ih (fun e he => h e (by simp [he]))]

theorem scanFlags_get_frame (ru : Bool) (handler : List Char → ErrorResult) :
    ∀ (cs : List Char) (flags : List Flag) (b : Bool) (j : Nat) (f : Flag),
      flags.get? j = some f → (∀ c ∈ cs, f.charKey ≠ some c) →
      (scanFlags ru handler flags cs b).flags.get? j = some f := by
  intro cs
  induction cs with
  | nil => intro flags b j f hj hc; exact hj
  | cons c cs2 ih =>
      intro flags b j f hj hc
      unfold scanFlags
      cases hsc : setFirstFlagChar flags c with
      | some flags2 =>
          have hj2 : flags2.get? j = some f := by
            rcases setFirstFlagChar_get flags c flags2 hsc j with h1 | ⟨f0, h2, h3, h4⟩
            · rw [h1, hj]
            · rw [hj] at h2
              injection h2 with h2
              subst h2
              exact absurd h3 (hc c (by simp))
          exact ih flags2 true j f hj2 (fun d hd => hc d (by simp [hd]))
      | none =>
          by_cases hr : ru ∧ b
          · simp only [if_pos hr]
            exact hj
          · simp only [if_neg hr]
            exact hj

theorem scanFlags_get_persist (ru : Bool) (handler : List Char → ErrorResult) :
    ∀ (cs : List Char) (flags : List Flag) (b : Bool) (j : Nat) (f : Flag),
      flags.get? j = some f → f.cell = !f.defaultVal →
      (scanFlags ru handler flags cs b).flags.get? j = some f := by
  intro cs
  induction cs with
  | nil => intro flags b j f hj hq; exact hj
  | cons c cs2 ih =>
      intro flags b j f hj hq
      unfold scanFlags
      cases hsc : setFirstFlagChar flags c with
      | some flags2 =>
          have hj2 : flags2.get? j = some f := by
            rcases setFirstFlagChar_get flags c flags2 hsc j with h1 | ⟨f0, h2, h3, h4⟩
            · rw [h1, hj]
            · rw [hj] at h2
              injection h2 with h2
              subst h2
              rw [h4, setFlag_self f hq]
          exact ih flags2 true j f hj2 hq
      | none =>
          by_cases hr : ru ∧ b
          · simp only [if_pos hr]
            exact hj
          · simp only [if_neg hr]
            exact hj

theorem scanFlags_sets_prefix (ru : Bool) (handler : List Char → ErrorResult) :
    ∀ (cs : List Char) (flags : List Flag) (b : Bool) (i : Nat) (f : Flag) (c : Char),
      flags.get? i = some f → f.charKey = some c →
      c ∈ cs.takeWhile (hasFlagChar flags) →
      (∀ j g, j < i → flags.get? j = some g → g.charKey ≠ some c) →
      (scanFlags ru handler flags cs b).flags.get? i = some (setFlag f) := by
  intro cs
  induction cs with
  | nil => intro flags b i f c hi hf hc; simp at hc
  | cons d cs2 ih =>
      intro flags b i f c hi hf hc hfirst
      by_cases hd : hasFlagChar flags d = true
      · have hsome : (setFirstFlagChar flags d).isSome = true := by
          rw [setFirstFlagChar_isSome, hd]
        obtain ⟨flags2, hsc⟩ := Option.isSome_iff_exists.mp hsome
        unfold scanFlags
        rw [hsc]
        by_cases hcd : c = d
        · subst hcd
          have hset : flags2.get? i = some (setFlag f) :=
            setFirstFlagChar_get_first flags c flags2 i f hsc hi hf hfirst
          exact scanFlags_get_persist ru handler cs2 flags2 true i (setFlag f) hset rfl
        · have hc2 : c ∈ cs2.takeWhile (hasFlagChar flags) := by
            rw [List.takeWhile_cons, if_pos hd] at hc
            rcases List.mem_cons.mp hc with h | h
            · exact absurd h hcd
            · exact h
          have hc2b : c ∈ cs2.takeWhile (hasFlagChar flags2) := by
            rw [takeWhile_congr_fun (hasFlagChar flags2) (hasFlagChar flags) cs2
              (fun e he => setFirstFlagChar_hasFlagChar flags d flags2 hsc e)]
            exact hc2
          have hi2 : flags2.get? i = some f := by
            rcases setFirstFlagChar_get flags d flags2 hsc i with h1 | ⟨f0, h2, h3, h4⟩
            · rw [h1, hi]
            · rw [hi] at h2
              injection h2 with h2
              subst h2
              rw [hf] at h3
              injection h3 with h3
              exact absurd h3 hcd
          have hfirst2 : ∀ j g, j < i → flags2.get? j = some g → g.charKey ≠ some c := by
            intro j g hj hg
            rcases setFirstFlagChar_get flags d flags2 hsc j with h1 | ⟨f0, h2, h3, h4⟩
            · rw [h1] at hg
              exact hfirst j g hj hg
            · rw [h4] at hg
              injection hg with hg
              subst hg
              rw [setFlag_charKey]
              exact hfirst j f0 hj h2
          exact ih flags2 true i f c hi2 hf hc2b hfirst2
      · rw [List.takeWhile_cons, if_neg hd] at hc
        simp at hc

theorem scanFlags_all_match (ru : Bool) (handler : List Char → ErrorResult) :
    ∀ (cs : List Char) (flags : List Flag) (b : Bool),
      (∀ d ∈ cs, hasFlagChar flags d = true) →
      (scanFlags ru handler flags cs b).err = none ∧
        (scanFlags ru handler flags cs b).isFlag = (b || !cs.isEmpty) := by
  intro cs
  induction cs with
  | nil => intro flags b hall; simp [scanFlags]
  | cons d cs2 ih =>
      intro flags b hall
      have hd : hasFlagChar flags d = true := hall d (by simp)
      have hsome : (setFirstFlagChar flags d).isSome = true := by
        rw [setFirstFlagChar_isSome, hd]
      obtain ⟨flags2, hsc⟩ := Option.isSome_iff_exists.mp hsome
      unfold scanFlags
      rw [hsc]
      have hall2 : ∀ e ∈ cs2, hasFlagChar flags2 e = true := fun e he => by
        rw [setFirstFlagChar_hasFlagChar flags d flags2 hsc e]
        exact hall e (by simp [he])
      obtain ⟨h1, h2⟩ := ih flags2 true hall2
      exact ⟨h1, by rw [h2]; simp⟩

theorem scanFlags_isFlag (ru : Bool) (handler : List Char → ErrorResult) :
    ∀ (cs : List Char) (flags : List Flag) (b : Bool),
      (scanFlags ru handler flags cs b).isFlag =
        (b || !(cs.takeWhile (hasFlagChar flags)).isEmpty) := by
  intro cs
  induction cs with
  | nil => intro flags b; simp [scanFlags]
  | cons c cs2 ih =>
      intro flags b
      unfold scanFlags
      cases hsc : setFirstFlagChar flags c with
      | some flags2 =>
          have hc : hasFlagChar flags c = true := by
            rw [← setFirstFlagChar_isSome, hsc]
            rfl
          have hkeys : cs2.takeWhile (hasFlagChar flags2) =
              cs2.takeWhile (hasFlagChar flags) := by
            apply takeWhile_congr_fun
            intro e he
            exact setFirstFlagChar_hasFlagChar flags c flags2 hsc e
          rw [ih flags2 true, hkeys]
          simp [List.takeWhile_cons, hc]
      | none =>
          have hc : hasFlagChar flags c = false := by
            rw [← setFirstFlagChar_isSome, hsc]
            rfl
          by_cases hr : ru ∧ b
          · simp only [if_pos hr]
            simp [List.takeWhile_cons, hc]
          · simp only [if_neg hr]
            simp [List.takeWhile_cons, hc]

theorem parseLoop_preserves (ru : Bool) (handler : List Char → ErrorResult)
    (P : PState → Prop) (tokP : List Char → Prop)
    (hstep : ∀ st input next?, P st → tokP input →
      P (stepState (parseStep ru handler st input next?))) :
    ∀ (n : Nat) (tokens : List (List Char)), tokens.length ≤ n → ∀ st : PState,
      P st → (∀ t ∈ tokens, tokP t) → P (parseLoop ru handler st tokens) := by
  intro n
  induction n with
  | zero =>
      intro tokens hlen st hP htok
      rw [List.length_eq_zero.mp (Nat.le_zero.mp hlen)]
      simpa [parseLoop] using hP
  | succ n ih =>
      intro tokens hlen st hP htok
      cases tokens with
      | nil => simpa [parseLoop] using hP
      | cons input rest =>
          have hP2 := hstep st input rest.head? hP (htok input (by simp))
          have hrest : rest.length ≤ n := by
            simp only [List.length_cons] at hlen
            omega
          simp only [parseLoop]
          cases hstepEq : parseStep ru handler st input rest.head? with
          | halt st2 =>
              rw [hstepEq] at hP2
              exact hP2
          | cont st2 dnext =>
              rw [hstepEq] at hP2
              replace hP2 : P st2 := hP2
              cases dnext with
              | false =>
                  exact ih rest hrest st2 hP2 (fun t ht => htok t (by simp [ht]))
              | true =>
                  cases rest with
                  | nil => exact hP2
                  | cons t2 rest2 =>
                      refine ih rest2 ?_ st2 hP2 (fun t ht => htok t (by simp [ht]))
                      simp only [List.length_cons] at hrest
                      omega

theorem parseLoop_errs_delta (ru : Bool) (handler : List Char → ErrorResult) :
    ∀ (n : Nat) (tokens : List (List Char)), tokens.length ≤ n → ∀ st : PState,
      ∃ δ, (parseLoop ru handler st tokens).errs = st.errs ++ δ ∧
        (parseLoop ru handler st tokens).success = (st.success && δ.isEmpty) := by
  intro n
  induction n with
  | zero =>
      intro tokens hlen st
      rw [List.length_eq_zero.mp (Nat.le_zero.mp hlen)]
      exact ⟨[], by simp [parseLoop], by simp [parseLoop]⟩
  | succ n ih =>
      intro tokens hlen st
      cases tokens with
      | nil => exact ⟨[], by simp [parseLoop], by simp [parseLoop]⟩
      | cons input rest =>
          have hkr := parseStep_keeps_or_reports ru handler st input rest.head?
          simp only [parseLoop]
          cases hstep : parseStep ru handler st input rest.head? with
          | halt st2 =>
              rw [hstep] at hkr
              rcases hkr with ⟨he, hs⟩ | ⟨e, he, hs⟩
              · exact ⟨[], by simpa [stepState] using he, by
                  simp only [List.isEmpty_nil, Bool.and_true]
                  simpa [stepState] using hs⟩
              · refine ⟨[e], by simpa [stepState] using he, ?_⟩
                have : st2.success = false := by simpa [stepState] using hs
                simp [this]
          | cont st2 dnext =>
              rw [hstep] at hkr
              have hrest : rest.length ≤ n := by
                simp only [List.length_cons] at hlen
                omega
              have hrec : ∀ toks : List (List Char), toks.length ≤ n →
                  ∃ δ2, (parseLoop ru handler st2 toks).errs = st2.errs ++ δ2 ∧
                    (parseLoop ru handler st2 toks).success = (st2.success && δ2.isEmpty) :=
                fun toks hl => ih toks hl st2
              have hcont : ∀ toks : List (List Char), toks.length ≤ n →
                  ∃ δ, (parseLoop ru handler st2 toks).errs = st.errs ++ δ ∧
                    (parseLoop ru handler st2 toks).success = (st.success && δ.isEmpty) := by
                intro toks hl
                obtain ⟨δ2, he2, hs2⟩ := hrec toks hl
                rcases hkr with ⟨he, hs⟩ | ⟨e, he, hs⟩
                · refine ⟨δ2, ?_, ?_⟩
                  · rw [he2]
                    simp [stepState] at he
                    rw [he]
                  · rw [hs2]
                    simp [stepState] at hs
                    rw [hs]
                · refine ⟨e :: δ2, ?_, ?_⟩
                  · rw [he2]
                    simp [stepState] at he
                    rw [he]
                    simp
                  · rw [hs2]
                    simp [stepState] at hs
                    rw [hs]
                    simp
              cases dnext with
              | false => exact hcont rest hrest
              | true =>
                  cases rest with
                  | nil =>
                      rcases hkr with ⟨he, hs⟩ | ⟨e, he, hs⟩
                      · exact ⟨[], by simpa [stepState] using he, by
                          simp only [List.isEmpty_nil, Bool.and_true]
                          simpa [stepState] using hs⟩
                      · refine ⟨[e], by simpa [stepState] using he, ?_⟩
                        have : st2.success = false := by simpa [stepState] using hs
                        simp [this]
                  | cons t2 rest2 =>
                      exact hcont rest2 (by simp at hrest; omega)

theorem takeWhile_all (p : Char → Bool) (l : List Char) (h : ∀ e ∈ l, p e = true) :
    l.takeWhile p = l := by
  induction l with
  | nil => rfl
  | cons x xs ih =>
      simp [List.takeWhile_cons, h x (by simp), ih (fun e he => h e (by simp [he]))]

theorem splitCmd_no_delim (w : List Char) (h : paramDelim ∉ w) : splitCmd w = (w, none) := by
  unfold splitCmd
  have ht : w.takeWhile (fun c => c ≠ paramDelim) = w := by
    apply takeWhile_all
    intro e he
    have hne : e ≠ paramDelim := by
      intro heq
      rw [heq] at he
      exact h he
    simpa using hne
  rw [ht, if_pos rfl]

theorem splitCmd_snd_none (l : List Char) (h : (splitCmd l).2 = none) :
    (splitCmd l).1 = l := by
  unfold splitCmd at h
  unfold splitCmd
  by_cases hl : (l.takeWhile (fun c => c ≠ paramDelim)).length = l.length
  · rw [if_pos hl]
    exact (List.takeWhile_prefix _).eq_of_length hl
  · rw [if_neg hl] at h
    simp at h

theorem longFinish_flags (ru : Bool) (handler : List Char → ErrorResult) (st : PState)
    (cmd param : List Char) (d : Bool) :
    (stepState (longFinish ru handler st cmd param d)).flags = st.flags := by
  unfold longFinish
  split
  · simp [stepState]
  · rw [reportStep_state]
  · split
    · rw [reportStep_state]
    · simp [stepState]

theorem shortFinish_flags (ru : Bool) (handler : List Char → ErrorResult) (st : PState)
    (input cmd param : List Char) (d : Bool) :
    (stepState (shortFinish ru handler st input cmd param d)).flags = st.flags := by
  unfold shortFinish
  split
  · split
    · simp [stepState]
    · rw [reportStep_state]
    · split
      · rw [reportStep_state]
      · simp [stepState]
  · rw [reportStep_state]

theorem longFinish_args_frame (ru : Bool) (handler : List Char → ErrorResult) (st : PState)
    (cmd param : List Char) (d : Bool) (j : Nat) (a : ValArg)
    (ha : st.args.get? j = some a) (hk : a.wordKey ≠ some cmd) :
    (stepState (longFinish ru handler st cmd param d)).args.get? j = some a := by
  unfold longFinish
  split
  · rename_i args2 heq
    simpa [stepState] using setFirstArgWord_updated_get st.args cmd param args2 heq j a ha hk
  · rw [reportStep_state]
    exact ha
  · split
    · rw [reportStep_state]
      exact ha
    · simpa [stepState] using ha

theorem shortFinish_args_frame (ru : Bool) (handler : List Char → ErrorResult) (st : PState)
    (input cmd param : List Char) (d : Bool) (j : Nat) (a : ValArg)
    (ha : st.args.get? j = some a) (hk : ∀ c, cmd = [c] → a.charKey ≠ some c) :
    (stepState (shortFinish ru handler st input cmd param d)).args.get? j = some a := by
  unfold shortFinish
  split
  · rename_i c
    split
    · rename_i args2 heq
      simpa [stepState] using
        setFirstArgChar_updated_get st.args c param args2 heq j a ha (hk c rfl)
    · rw [reportStep_state]
      exact ha
    · split
      · rw [reportStep_state]
        exact ha
      · simpa [stepState] using ha
  · rw [reportStep_state]
    exact ha

theorem flagMentioned_char_not_mem (f : Flag) (input : List Char) (c : Char)
    (hc : f.charKey = some c) (hm : flagMentioned f input = false)
    (hh : input.head? = some charArgDelim) : c ∉ input.drop 1 := by
  unfold flagMentioned at hm
  rw [hc] at hm
  rcases Bool.or_eq_false_iff.mp hm with ⟨hm1, _⟩
  rcases Bool.and_eq_false_iff.mp hm1 with h | h
  · rw [hh] at h
    simp at h
  · simpa using h

theorem flagMentioned_word_ne (f : Flag) (input : List Char) (w : List Char)
    (hw : f.wordKey = some w) (hm : flagMentioned f input = false) :
    input ≠ wordArgDelim ++ w := by
  unfold flagMentioned at hm
  rw [hw] at hm
  rcases Bool.or_eq_false_iff.mp hm with ⟨_, hm2⟩
  simpa using hm2

theorem argMentioned_word_ne (a : ValArg) (input : List Char) (w : List Char)
    (hw : a.wordKey = some w) (hm : argMentioned a input = false)
    (hlen : 2 < input.length) (hdd : input.take 2 = wordArgDelim) :
    (splitCmd (input.drop 2)).1 ≠ w := by
  unfold argMentioned at hm
  rw [hw] at hm
  rcases Bool.or_eq_false_iff.mp hm with ⟨_, hm2⟩
  rcases Bool.and_eq_false_iff.mp hm2 with h | h
  · rcases Bool.and_eq_false_iff.mp h with h2 | h2
    · simp at h2
      omega
    · simp at h2
      exact absurd hdd h2
  · simpa using h

theorem argMentioned_char_ne (a : ValArg) (input : List Char) (c : Char)
    (hm : argMentioned a input = false) (hh : input.head? = some charArgDelim)
    (hsp : (splitCmd (input.drop 1)).1 = [c]) : a.charKey ≠ some c := by
  intro hc
  unfold argMentioned at hm
  rw [hc] at hm
  rcases Bool.or_eq_false_iff.mp hm with ⟨hm1, _⟩
  rcases Bool.and_eq_false_iff.mp hm1 with h | h
  · rw [hh] at h
    simp at h
  · rw [hsp] at h
    simp at h

theorem parseStep_flag_frame (ru : Bool) (handler : List Char → ErrorResult) (st : PState)
    (input : List Char) (next? : Option (List Char)) (i : Nat) (f : Flag)
    (hi : st.flags.get? i = some f) (hm : flagMentioned f input = false) :
    (stepState (parseStep ru handler st input next?)).flags.get? i = some f := by
  by_cases h1 : 2 < input.length ∧ input.take 2 = wordArgDelim
  · rw [parseStep_long ru handler st input next? h1]
    split
    · rw [longFinish_flags]
      exact hi
    · rename_i heqsp
      split
      · rename_i flags2 heqf
        have hget := setFirstFlagWord_get st.flags _ flags2 heqf i
        rcases hget with hsame | ⟨f0, hg2, hg3, hg4⟩
        · simpa [stepState] using hsame.trans hi
        · exfalso
          rw [hi] at hg2
          injection hg2 with hg2
          subst hg2
          have hcmd : (splitCmd (input.drop 2)).1 = input.drop 2 :=
            splitCmd_snd_none _ heqsp
          have hne := flagMentioned_word_ne f input _ hg3 hm
          apply hne
          rw [hcmd]
          conv =>
            lhs
            rw [← List.take_append_drop 2 input]
          rw [h1.2]
      · split
        · simpa [stepState] using hi
        · rw [longFinish_flags]
          exact hi
  · by_cases h2 : 1 < input.length ∧ input.head? = some charArgDelim
    · have hscan : (scanFlags ru handler st.flags (input.drop 1) false).flags.get? i =
          some f := by
        apply scanFlags_get_frame ru handler (input.drop 1) st.flags false i f hi
        intro d hd hck
        exact absurd hd (by
          have := flagMentioned_char_not_mem f input d hck hm h2.2
          exact this)
      rw [parseStep_short ru handler st input next? _ rfl h1 h2]
      split
      · split
        · simpa [stepState] using hscan
        · simpa [stepState] using hscan
      · split
        · simpa [stepState] using hscan
        · split
          · rw [shortFinish_flags]
            exact hi
          · split
            · simpa [stepState] using hi
            · rw [shortFinish_flags]
              exact hi
    · rw [parseStep_other ru handler st input next? h1 h2]
      rw [reportStep_state]
      exact hi

theorem parseStep_flag_persist (ru : Bool) (handler : List Char → ErrorResult) (st : PState)
    (input : List Char) (next? : Option (List Char)) (i : Nat) (f : Flag)
    (hi : st.flags.get? i = some f) (hq : f.cell = !f.defaultVal) :
    (stepState (parseStep ru handler st input next?)).flags.get? i = some f := by
  by_cases h1 : 2 < input.length ∧ input.take 2 = wordArgDelim
  · rw [parseStep_long ru handler st input next? h1]
    split
    · rw [longFinish_flags]
      exact hi
    · split
      · rename_i flags2 heqf
        have hget := setFirstFlagWord_get st.flags _ flags2 heqf i
        rcases hget with hsame | ⟨f0, hg2, hg3, hg4⟩
        · simpa [stepState] using hsame.trans hi
        · rw [hi] at hg2
          injection hg2 with hg2
          subst hg2
          rw [setFlag_self f hq] at hg4
          simpa [stepState] using hg4
      · split
        · simpa [stepState] using hi
        · rw [longFinish_flags]
          exact hi
  · by_cases h2 : 1 < input.length ∧ input.head? = some charArgDelim
    · have hscan : (scanFlags ru handler st.flags (input.drop 1) false).flags.get? i =
          some f :=
        scanFlags_get_persist ru handler (input.drop 1) st.flags false i f hi hq
      rw [parseStep_short ru handler st input next? _ rfl h1 h2]
      split
      · split
        · simpa [stepState] using hscan
        · simpa [stepState] using hscan
      · split
        · simpa [stepState] using hscan
        · split
          · rw [shortFinish_flags]
            exact hi
          · split
            · simpa [stepState] using hi
            · rw [shortFinish_flags]
              exact hi
    · rw [parseStep_other ru handler st input next? h1 h2]
      rw [reportStep_state]
      exact hi

theorem parseStep_args_frame (ru : Bool) (handler : List Char → ErrorResult) (st : PState)
    (input : List Char) (next? : Option (List Char)) (j : Nat) (a : ValArg)
    (ha : st.args.get? j = some a) (hm : argMentioned a input = false) :
    (stepState (parseStep ru handler st input next?)).args.get? j = some a := by
  by_cases h1 : 2 < input.length ∧ input.take 2 = wordArgDelim
  · have hk : a.wordKey ≠ some (splitCmd (input.drop 2)).1 := by
      intro hw
      exact argMentioned_word_ne a input _ hw hm h1.1 h1.2 rfl
    rw [parseStep_long ru handler st input next? h1]
    split
    · exact longFinish_args_frame ru handler st _ _ false j a ha hk
    · split
      · simpa [stepState] using ha
      · split
        · simpa [stepState] using ha
        · exact longFinish_args_frame ru handler st _ _ true j a ha hk
  · by_cases h2 : 1 < input.length ∧ input.head? = some charArgDelim
    · rw [parseStep_short ru handler st input next? _ rfl h1 h2]
      split
      · split
        · simpa [stepState] using ha
        · simpa [stepState] using ha
      · split
        · simpa [stepState] using ha
        · split
          · apply shortFinish_args_frame ru handler st input _ _ false j a ha
            intro c hcmd
            exact argMentioned_char_ne a input c hm h2.2 hcmd
          · split
            · simpa [stepState] using ha
            · apply shortFinish_args_frame ru handler st input _ _ true j a ha
              intro c hcmd
              exact argMentioned_char_ne a input c hm h2.2 hcmd
    · rw [parseStep_other ru handler st input next? h1 h2]
      rw [reportStep_state]
      exact ha

/-! ## Claim theorems -/

/-- **C1.** For every integer destination of bit width `w` and every token
whose 64-bit accumulator parse succeeds with a value outside the
destination's range, the coercion succeeds and writes the nearest bound:
the destination's max above `max_w`, its lowest below `min_w`; in
particular an `int32` destination given `"10000000000000"` parses
successfully (no error reported) and stores `INT32_MAX`. -/
theorem integer_saturation_within_accumulator (w : Nat) (input : List Char)
    (v : Int) (u : Nat) :
    ((signedAccum input = (Errc.ok, v) →
        (intMax w < v →
          trySetSignedInteger (intMin w) (intMax w) input = some (intMax w)) ∧
        (v < intMin w →
          trySetSignedInteger (intMin w) (intMax w) input = some (intMin w))) ∧
      (unsignedAccum input = (Errc.ok, u) →
        uintMax w < (u : Int) →
          trySetUnsignedInteger (uintMax w) input = some (uintMax w))) ∧
    parse false (fun _ => ErrorResult.Continue) []
        [⟨some 'i', none, ArgKind.sint (intMin 32) (intMax 32), ArgCell.plain (Value.vi 0)⟩]
        [chars ("-i"), chars ("10000000000000")] =
      ⟨[], [⟨some 'i', none, ArgKind.sint (intMin 32) (intMax 32),
        ArgCell.plain (Value.vi (intMax 32))⟩], true, []⟩ := by
  refine ⟨⟨fun h => ⟨fun hv => ?_, fun hv => ?_⟩, fun h hu => ?_⟩, by decide⟩
  · rw [trySetSigned_of_accum_ok _ _ v input h, if_pos hv]
  · have hle : ¬ (intMax w < v) := by
      have := intMin_le_intMax w
      omega
    rw [trySetSigned_of_accum_ok _ _ v input h, if_neg hle, if_pos hv]
  · rw [trySetUnsigned_of_accum_ok _ u input h, if_pos hu]

/-- **C1 witness.** `int32` destination, token `"10000000000000"`. -/
theorem integer_saturation_within_accumulator_witness :
    trySetSignedInteger (intMin 32) (intMax 32) (chars ("10000000000000")) =
      some (intMax 32) :=
  ((integer_saturation_within_accumulator 32 (chars ("10000000000000"))
      10000000000000 0).1.1 (by decide)).1 (by decide)

/-- **C2.** What the code actually does when the token overflows the 64-bit
accumulator: `trySetArithmeticResult` receives `input[0] == '-'` for its
`isPositive` parameter, so the saturation direction is inverted — a huge
positive decimal stores the destination's *lowest* (not its max), a huge
negative decimal stores the destination's *max*, and a huge unsigned value
stores `0`.  The call still succeeds (never an error), but it contradicts
the claim's (and the parameter name's) stated direction. -/
theorem accumulator_overflow_saturates_to_wrong_bound :
    signedAccum (chars ("99999999999999999999")) = (Errc.resultOutOfRange, 0) ∧
    trySetSignedInteger (intMin 32) (intMax 32) (chars ("99999999999999999999")) =
      some (intMin 32) ∧
    trySetSignedInteger (intMin 32) (intMax 32) (chars ("-99999999999999999999")) =
      some (intMax 32) ∧
    trySetUnsignedInteger (uintMax 32) (chars ("99999999999999999999")) = some 0 := by
  decide

/-- **C3.** `parse` returns `true` exactly when the handler was never
invoked: the trace `errs` records the errors handed to the handler, one
invocation per reported failure, appended in scan order (second conjunct:
a run never rewrites or drops the errors already reported, so the final
trace lists every failure exactly once in token order); the boolean result
is `true` iff that trace is empty, and any report makes it `false` even
when scanning continues. -/
theorem parse_success_iff_no_error (ru : Bool) (handler : List Char → ErrorResult)
    (flags : List Flag) (args : List ValArg) (tokens : List (List Char)) :
    ((parse ru handler flags args tokens).success = true ↔
      (parse ru handler flags args tokens).errs = []) ∧
    (∀ st : PState,
      (parseLoop ru handler st tokens).errs.take st.errs.length = st.errs) := by
  constructor
  · obtain ⟨δ, he, hs⟩ :=
      parseLoop_errs_delta ru handler tokens.length tokens le_rfl ⟨flags, args, true, []⟩
    unfold parse
    rw [he, hs]
    simp [List.isEmpty_iff]
  · intro st
    obtain ⟨δ, he, hs⟩ := parseLoop_errs_delta ru handler tokens.length tokens le_rfl st
    rw [he]
    exact List.take_left st.errs δ

/-- **C4.** When a token is scanned in key position, resolves to the
value-expecting path (long form that is not a flag, or short form with no
flag chain) with no inline `=` value, and no following token exists, the
parse reports the "Unexpected termination. Expected parameter" error once
and returns `false` immediately — for every handler, so the handler's
`Continue` answer (or a void handler) cannot override it. -/
theorem missing_parameter_always_fatal (ru : Bool) (handler : List Char → ErrorResult)
    (st : PState) (t : List Char)
    (h : (2 < t.length ∧ t.take 2 = wordArgDelim ∧ (splitCmd (t.drop 2)).2 = none ∧
            setFirstFlagWord st.flags (splitCmd (t.drop 2)).1 = none) ∨
         (¬ (2 < t.length ∧ t.take 2 = wordArgDelim) ∧ 1 < t.length ∧
            t.head? = some charArgDelim ∧
            ((t.drop 1).head?.all fun c => (setFirstFlagChar st.flags c).isNone) = true ∧
            (splitCmd (t.drop 1)).2 = none)) :
    parseLoop ru handler st [t] =
      { st with success := false, errs := st.errs ++ [termErrMsg t] } := by
  rcases h with ⟨hlen, hdd, hsp, hfl⟩ | ⟨hnl, hlen, hhd, hnf, hsp⟩
  · simp only [parseLoop, List.head?_nil]
    rw [parseStep_long ru handler st t none ⟨hlen, hdd⟩, hsp, hfl]
  · obtain ⟨c, cs, hdrop⟩ : ∃ c cs, t.drop 1 = c :: cs := by
      cases hd : t.drop 1 with
      | nil =>
          exfalso
          have : t.length - 1 = 0 := by
            rw [← List.length_drop, hd]
            rfl
          omega
      | cons c cs => exact ⟨c, cs, rfl⟩
    have hc : setFirstFlagChar st.flags c = none := by
      rw [hdrop] at hnf
      simpa [Option.isNone_iff_eq_none] using hnf
    have hscan : scanFlags ru handler st.flags (t.drop 1) false =
        ⟨st.flags, false, none, false⟩ := by
      rw [hdrop]
      simp only [scanFlags, hc]
      simp
    simp only [parseLoop, List.head?_nil]
    rw [parseStep_short ru handler st t none _ hscan hnl ⟨hlen, hhd⟩, hsp]
    rfl

/-- **C4 witness.** `["--num"]` with an empty registry: one termination
error, immediate `false`. -/
theorem missing_parameter_always_fatal_witness :
    parseLoop false (fun _ => ErrorResult.Continue) ⟨[], [], true, []⟩
        [chars ("--num")] =
      ⟨[], [], false, [termErrMsg (chars ("--num"))]⟩ := by
  have h := missing_parameter_always_fatal false (fun _ => ErrorResult.Continue)
    ⟨[], [], true, []⟩ (chars ("--num"))
    (Or.inl ⟨by decide, by decide, by decide, by decide⟩)
  exact h

/-- **C5.** `trySetBool` lower-cases the token ASCII-wise and succeeds with
`true` exactly on the fixed true-set, with `false` exactly on the fixed
false-set, fails on everything else, and a failed boolean coercion leaves
the bound cell unchanged (`applyCoerce` answers `none`). -/
theorem bool_keyword_coercion (input : List Char) :
    (trySetBool input = some true ↔ input.map lowerAscii ∈ TrueStrings) ∧
    (trySetBool input = some false ↔ input.map lowerAscii ∈ FalseStrings) ∧
    (trySetBool input = none ↔
      (input.map lowerAscii ∉ TrueStrings ∧ input.map lowerAscii ∉ FalseStrings)) ∧
    (∀ a : ValArg, a.kind = ArgKind.bool → trySetBool input = none →
      applyCoerce a input = none) := by
  have hdisj : input.map lowerAscii ∈ TrueStrings →
      input.map lowerAscii ∈ FalseStrings → False := by
    intro h1 h2
    have hall : ∀ l ∈ TrueStrings, l ∉ FalseStrings := by decide
    exact hall _ h1 h2
  refine ⟨?_, ?_, ?_, fun a hk hn => ?_⟩
  · unfold trySetBool
    by_cases h1 : input.map lowerAscii ∈ TrueStrings
    · simp [h1]
    · by_cases h2 : input.map lowerAscii ∈ FalseStrings <;> simp [h1, h2]
  · unfold trySetBool
    by_cases h1 : input.map lowerAscii ∈ TrueStrings
    · simp [h1]
      exact fun h2 => hdisj h1 h2
    · by_cases h2 : input.map lowerAscii ∈ FalseStrings <;> simp [h1, h2]
  · unfold trySetBool
    by_cases h1 : input.map lowerAscii ∈ TrueStrings
    · simp [h1]
    · by_cases h2 : input.map lowerAscii ∈ FalseStrings <;> simp [h1, h2]
  · simp [applyCoerce, coerceValue, hk, hn]

/-- **C5 witness.** The token `"maybe"` is in neither keyword set, so a
boolean argument's coercion fails and its cell is untouched. -/
theorem bool_keyword_coercion_witness :
    applyCoerce ⟨some 'b', none, ArgKind.bool, ArgCell.plain (Value.vb false)⟩
      (chars ("maybe")) = none :=
  (bool_keyword_coercion (chars ("maybe"))).2.2.2
    ⟨some 'b', none, ArgKind.bool, ArgCell.plain (Value.vb false)⟩ rfl (by decide)

/-- **C6.** Short-form dispatch: the characters after the delimiter are
tried as flag char keys left to right, stopping at the first non-flag
character (the scan recognised a flag iff the maximal flag-char prefix is
nonempty); if at least one flag matched, the whole token is consumed — the
valued-argument registry is never touched and the next token is not
consumed; if zero flags matched, the token is reinterpreted as a
single-character valued argument: split on the value delimiter, and with
no inline value consume the next token (terminating when none exists); a
key that is not exactly one character fails with the "unexpected format"
error. -/
theorem short_form_dispatch (ru : Bool) (handler : List Char → ErrorResult) (st : PState)
    (t : List Char) (next? : Option (List Char))
    (h1 : 1 < t.length) (h2 : t.head? = some charArgDelim)
    (h3 : ¬ (2 < t.length ∧ t.take 2 = wordArgDelim)) :
    ((scanFlags ru handler st.flags (t.drop 1) false).isFlag =
        !((t.drop 1).takeWhile (hasFlagChar st.flags)).isEmpty) ∧
    ((t.drop 1).takeWhile (hasFlagChar st.flags) ≠ [] →
      (stepState (parseStep ru handler st t next?)).args = st.args ∧
        stepDrop (parseStep ru handler st t next?) = false) ∧
    ((t.drop 1).takeWhile (hasFlagChar st.flags) = [] →
      parseStep ru handler st t next? =
        (match (splitCmd (t.drop 1)).2 with
         | some param => shortFinish ru handler st t (splitCmd (t.drop 1)).1 param false
         | none =>
            match next? with
            | none =>
                StepRes.halt { st with success := false, errs := st.errs ++ [termErrMsg t] }
            | some param => shortFinish ru handler st t (splitCmd (t.drop 1)).1 param true)) ∧
    (∀ (cmd param : List Char) (d : Bool), cmd.length ≠ 1 →
      shortFinish ru handler st t cmd param d =
        reportStep handler st (cmdFormatErrMsg t) d) := by
  refine ⟨?_, ?_, ?_, ?_⟩
  · rw [scanFlags_isFlag]
    simp
  · intro hmatched
    have hisf : (scanFlags ru handler st.flags (t.drop 1) false).isFlag = true := by
      rw [scanFlags_isFlag]
      simpa using hmatched
    rw [parseStep_short ru handler st t next? _ rfl h3 ⟨h1, h2⟩]
    cases hsc : (scanFlags ru handler st.flags (t.drop 1) false).err with
    | some e =>
        rw [List.drop_one] at hsc
        by_cases ht : (scanFlags ru handler st.flags t.tail false).terminated
        · simp [hsc, ht, stepState, stepDrop]
        · simp [hsc, ht, stepState, stepDrop]
    | none =>
        rw [List.drop_one] at hsc
        rw [List.drop_one] at hisf
        simp [hsc, hisf, stepState, stepDrop]
  · intro hmatched
    obtain ⟨c, cs, hdrop⟩ : ∃ c cs, t.drop 1 = c :: cs := by
      cases hd : t.drop 1 with
      | nil =>
          exfalso
          have : t.length - 1 = 0 := by
            rw [← List.length_drop, hd]
            rfl
          omega
      | cons c cs => exact ⟨c, cs, rfl⟩
    have hc : hasFlagChar st.flags c = false := by
      rw [hdrop] at hmatched
      by_cases hcc : hasFlagChar st.flags c = true
      · rw [List.takeWhile_cons, if_pos hcc] at hmatched
        simp at hmatched
      · simpa using hcc
    have hnone : setFirstFlagChar st.flags c = none := by
      have hs := setFirstFlagChar_isSome st.flags c
      rw [hc] at hs
      exact Option.not_isSome_iff_eq_none.mp (by simp [hs])
    have hscan : scanFlags ru handler st.flags (t.drop 1) false =
        ⟨st.flags, false, none, false⟩ := by
      rw [hdrop]
      simp only [scanFlags, hnone]
      simp
    rw [parseStep_short ru handler st t next? _ hscan h3 ⟨h1, h2⟩]
    rfl
  · intro cmd param d hcmd
    cases cmd with
    | nil => rfl
    | cons c tl =>
        cases tl with
        | nil => exact absurd rfl hcmd
        | cons c2 tl2 => rfl

/-- **C6 witness.** Registry with flag `f`; the token `"-f"` is consumed
as a whole flag token: valued arguments untouched, next token kept. -/
theorem short_form_dispatch_witness :
    (stepState (parseStep false (fun _ => ErrorResult.Continue)
        ⟨[⟨some 'f', none, false, false⟩], [], true, []⟩ (chars ("-f")) none)).args =
        (⟨[⟨some 'f', none, false, false⟩], [], true, []⟩ : PState).args ∧
      stepDrop (parseStep false (fun _ => ErrorResult.Continue)
        ⟨[⟨some 'f', none, false, false⟩], [], true, []⟩ (chars ("-f")) none) = false :=
  (short_form_dispatch false (fun _ => ErrorResult.Continue)
      ⟨[⟨some 'f', none, false, false⟩], [], true, []⟩ (chars ("-f")) none
      (by decide) (by decide) (by decide)).2.1 (by decide)

/-- **C7 (amended).** Flag toggling: `setFlag` always writes the negation
of the registration-time default; a flag entry whose keys are never
mentioned by any token is untouched by `parse`; once its cell holds `!d`
it stays `!d` for the rest of the run (so repetition is idempotent); and a
step whose token is the flag's long form (`--` ++ word key, no `=`) or a
short-form token whose maximal prefix of registered flag chars includes
its char key writes `!d` into its cell — partial chains count, so `-fz`
with only `f` registered still sets `f`.  (As stated the claim is false:
a token carrying the flag's key can be consumed as the *parameter* of a
preceding valued argument, or sit after the chain-stopping character, and
then the flag keeps its default — see the counterexample.) -/
theorem flag_presence_toggles_negated_default (ru : Bool)
    (handler : List Char → ErrorResult) (i : Nat) :
    (∀ f : Flag, (setFlag f).cell = !f.defaultVal) ∧
    (∀ (flags : List Flag) (args : List ValArg) (tokens : List (List Char)) (f : Flag),
      flags.get? i = some f →
      (∀ t ∈ tokens, flagMentioned f t = false) →
      (parse ru handler flags args tokens).flags.get? i = some f) ∧
    (∀ (st : PState) (tokens : List (List Char)) (f : Flag),
      st.flags.get? i = some f → f.cell = !f.defaultVal →
      (parseLoop ru handler st tokens).flags.get? i = some f) ∧
    (∀ (st : PState) (next? : Option (List Char)) (f : Flag) (w : List Char),
      st.flags.get? i = some f → f.wordKey = some w → w ≠ [] → paramDelim ∉ w →
      (∀ j g, j < i → st.flags.get? j = some g → g.wordKey ≠ some w) →
      (stepState (parseStep ru handler st (wordArgDelim ++ w) next?)).flags.get? i =
        some (setFlag f)) ∧
    (∀ (st : PState) (next? : Option (List Char)) (f : Flag) (c : Char) (cs : List Char),
      st.flags.get? i = some f → f.charKey = some c →
      c ∈ cs.takeWhile (hasFlagChar st.flags) →
      cs.head? ≠ some charArgDelim →
      (∀ j g, j < i → st.flags.get? j = some g → g.charKey ≠ some c) →
      (stepState (parseStep ru handler st (charArgDelim :: cs) next?)).flags.get? i =
        some (setFlag f)) := by
  refine ⟨fun f => rfl, ?_, ?_, ?_, ?_⟩
  · intro flags args tokens f hi hmen
    exact parseLoop_preserves ru handler (fun st => st.flags.get? i = some f)
      (fun tk => flagMentioned f tk = false)
      (fun st input next? hP htk => parseStep_flag_frame ru handler st input next? i f hP htk)
      tokens.length tokens le_rfl ⟨flags, args, true, []⟩ hi hmen
  · intro st tokens f hi hq
    exact parseLoop_preserves ru handler (fun st2 => st2.flags.get? i = some f)
      (fun _ => True)
      (fun st2 input next? hP _ =>
        parseStep_flag_persist ru handler st2 input next? i f hP hq)
      tokens.length tokens le_rfl st hi (fun _ _ => trivial)
  · intro st next? f w hi hw hwne hnd hfirst
    have hwpos : 0 < w.length := List.length_pos.mpr hwne
    have hlen3 : 2 < (wordArgDelim ++ w).length := by
      simp [wordArgDelim]
      omega
    have htake : (wordArgDelim ++ w).take 2 = wordArgDelim := by
      rw [show (2 : Nat) = wordArgDelim.length from rfl, List.take_left]
    have hdrop : (wordArgDelim ++ w).drop 2 = w := by
      rw [show (2 : Nat) = wordArgDelim.length from rfl, List.drop_left]
    have hmem : f ∈ st.flags := List.get?_mem hi
    have hsome : (setFirstFlagWord st.flags w).isSome = true := by
      rw [setFirstFlagWord_isSome]
      exact List.any_eq_true.mpr ⟨f, hmem, by simp [hw]⟩
    obtain ⟨flags2, heqf⟩ := Option.isSome_iff_exists.mp hsome
    rw [parseStep_long ru handler st (wordArgDelim ++ w) next? ⟨hlen3, htake⟩]
    rw [hdrop, splitCmd_no_delim w hnd]
    simp only [heqf]
    simpa [stepState] using setFirstFlagWord_get_first st.flags w flags2 i f heqf hi hw hfirst
  · intro st next? f c cs hi hck hcmem hhd hfirst
    have hpre_ne : cs.takeWhile (hasFlagChar st.flags) ≠ [] := by
      intro h
      rw [h] at hcmem
      simp at hcmem
    have hcs_ne : cs ≠ [] := by
      intro h
      subst h
      simp at hcmem
    have hnl : ¬ (2 < (charArgDelim :: cs).length ∧
        (charArgDelim :: cs).take 2 = wordArgDelim) := by
      rintro ⟨hl, ht⟩
      cases cs with
      | nil => simp at hl
      | cons c1 cs2 =>
          have hc1 : c1 = charArgDelim := by
            simpa [wordArgDelim, charArgDelim] using ht
          exact hhd (by simp [hc1])
    have hs2 : 1 < (charArgDelim :: cs).length ∧
        (charArgDelim :: cs).head? = some charArgDelim := by
      refine ⟨?_, rfl⟩
      have := List.length_pos.mpr hcs_ne
      simp
      omega
    have hsets := scanFlags_sets_prefix ru handler cs st.flags false i f c hi hck hcmem hfirst
    have hisf : (scanFlags ru handler st.flags cs false).isFlag = true := by
      rw [scanFlags_isFlag]
      simpa using hpre_ne
    rw [parseStep_short ru handler st (charArgDelim :: cs) next? _ rfl hnl hs2]
    simp only [List.drop_succ_cons, List.drop_zero]
    cases hsc : (scanFlags ru handler st.flags cs false).err with
    | some e =>
        by_cases ht : (scanFlags ru handler st.flags cs false).terminated
        · simpa [hsc, ht, stepState] using hsets
        · simpa [hsc, ht, stepState] using hsets
    | none => simpa [hsc, hisf, stepState] using hsets

/-- **C7 counterexample.** Flag `f` (char key `'f'`, default `false`) and
a valued argument with word key `"num"` are registered; the command line
`["--num", "-f"]` contains the flag's char key in a short-form token, yet
after `parse` the flag's storage still equals its default `false` — the
token `"-f"` was consumed as the (ill-formed numeric) parameter of
`--num`, so the claim's "presence of the key sets storage to `!d`" fails
as stated. -/
theorem flag_key_consumed_as_parameter :
    (parse false (fun _ => ErrorResult.Continue)
        [⟨some 'f', none, false, false⟩]
        [⟨none, some (chars ("num")), ArgKind.sint (intMin 32) (intMax 32),
          ArgCell.plain (Value.vi 7)⟩]
        [chars ("--num"), chars ("-f")]).flags =
      [⟨some 'f', none, false, false⟩] := by
  decide

/-- **C7 witness.** Registry with only flag `f` (char key `'f'`, default
`false`): the partial chain `-fz` (where `z` is not registered) still
sets `f` to `!false = true`. -/
theorem flag_presence_toggles_negated_default_witness :
    (stepState (parseStep false (fun _ => ErrorResult.Continue)
        ⟨[⟨some 'f', none, false, false⟩], [], true, []⟩
        (charArgDelim :: chars ("fz")) none)).flags.get? 0 =
      some (setFlag ⟨some 'f', none, false, false⟩) :=
  (flag_presence_toggles_negated_default false (fun _ => ErrorResult.Continue) 0).2.2.2.2
    ⟨[⟨some 'f', none, false, false⟩], [], true, []⟩ none
    ⟨some 'f', none, false, false⟩ 'f' (chars ("fz"))
    rfl rfl (by decide) (by decide)
    (fun j g hj _ => absurd hj (by omega))

/-- **C9.** A registered valued-argument entry whose keys match no scanned
token is bit-for-bit unchanged by `parse` (in particular an unsupplied
unsigned argument keeps its pre-parse value and a never-supplied
`Optional` stays unset), and a successful coercion writes only the one
matched entry: every other index of the registry is preserved by
`setFirstArgWord` / `setFirstArgChar`. -/
theorem unmatched_entries_unchanged (ru : Bool) (handler : List Char → ErrorResult)
    (flags : List Flag) (args : List ValArg) (tokens : List (List Char)) (j : Nat)
    (a : ValArg) (ha : args.get? j = some a)
    (hm : ∀ t ∈ tokens, argMentioned a t = false) :
    (parse ru handler flags args tokens).args.get? j = some a ∧
    (∀ (args0 : List ValArg) (w param : List Char) (args2 : List ValArg) (k : Nat)
        (b : ValArg),
      setFirstArgWord args0 w param = SetOutcome.updated args2 →
      args0.get? k = some b → b.wordKey ≠ some w → args2.get? k = some b) ∧
    (∀ (args0 : List ValArg) (c : Char) (param : List Char) (args2 : List ValArg) (k : Nat)
        (b : ValArg),
      setFirstArgChar args0 c param = SetOutcome.updated args2 →
      args0.get? k = some b → b.charKey ≠ some c → args2.get? k = some b) := by
  refine ⟨?_, ?_, ?_⟩
  · exact parseLoop_preserves ru handler (fun st => st.args.get? j = some a)
      (fun t => argMentioned a t = false)
      (fun st input next? hP ht => parseStep_args_frame ru handler st input next? j a hP ht)
      tokens.length tokens le_rfl ⟨flags, args, true, []⟩ ha hm
  · intro args0 w param args2 k b h hb hk
    exact setFirstArgWord_updated_get args0 w param args2 h k b hb hk
  · intro args0 c param args2 k b h hb hk
    exact setFirstArgChar_updated_get args0 c param args2 h k b hb hk

/-- **C9 witness.** `["-i", "-10"]` with an int32 entry and an unsigned
entry (default cell 1): the unsigned entry at index 1 is unchanged. -/
theorem unmatched_entries_unchanged_witness :
    (parse false (fun _ => ErrorResult.Continue) []
        [⟨some 'i', none, ArgKind.sint (intMin 32) (intMax 32), ArgCell.plain (Value.vi 0)⟩,
         ⟨some 'u', none, ArgKind.uint (uintMax 32), ArgCell.plain (Value.vi 1)⟩]
        [chars ("-i"), chars ("-10")]).args.get? 1 =
      some ⟨some 'u', none, ArgKind.uint (uintMax 32), ArgCell.plain (Value.vi 1)⟩ :=
  (unmatched_entries_unchanged false (fun _ => ErrorResult.Continue) []
      [⟨some 'i', none, ArgKind.sint (intMin 32) (intMax 32), ArgCell.plain (Value.vi 0)⟩,
       ⟨some 'u', none, ArgKind.uint (uintMax 32), ArgCell.plain (Value.vi 1)⟩]
      [chars ("-i"), chars ("-10")] 1
      ⟨some 'u', none, ArgKind.uint (uintMax 32), ArgCell.plain (Value.vi 1)⟩
      (by decide) (by decide)).1

/-- **C8.** An inline value that is the empty string (`--key=`) is split
off as a genuine (empty) parameter: the dispatcher hands the empty token
to the matched argument's coercion and does not consume the next token
(`dropNext = false`), unlike the no-inline-value shape (`splitCmd` answers
`none` there); an empty token fails the numeric coercions, so `--key=`
for a numeric destination is a coercion error, not a lookahead. -/
theorem empty_inline_value (ru : Bool) (handler : List Char → ErrorResult) (st : PState)
    (key : List Char) (next? : Option (List Char)) :
    (paramDelim ∉ key →
      splitCmd (key ++ [paramDelim]) = (key, some []) ∧
      parseStep ru handler st (wordArgDelim ++ (key ++ [paramDelim])) next? =
        longFinish ru handler st key [] false ∧
      (splitCmd key).2 = none) ∧
    (∀ lo hi : Int, coerceValue (ArgKind.sint lo hi) [] = none) ∧
    (∀ hi : Int, coerceValue (ArgKind.uint hi) [] = none) := by
  refine ⟨fun hnd => ?_, fun lo hi => rfl, fun hi => rfl⟩
  have hsp : splitCmd (key ++ [paramDelim]) = (key, some []) := by
    unfold splitCmd
    have htw : (key ++ [paramDelim]).takeWhile (fun c => c ≠ paramDelim) = key := by
      apply takeWhile_digit_run
      · intro e he
        have hne : e ≠ paramDelim := by
          intro heq
          rw [heq] at he
          exact hnd he
        simpa using hne
      · simp
    rw [htw]
    have hlen : ¬ (key.length = (key ++ [paramDelim]).length) := by simp
    rw [if_neg hlen]
    have hdrop : (key ++ [paramDelim]).drop (key.length + 1) = [] := by
      have hl : (key ++ [paramDelim]).length = key.length + 1 := by simp
      rw [← hl, List.drop_length]
    rw [hdrop]
  refine ⟨hsp, ?_, ?_⟩
  · have hlen : 2 < (wordArgDelim ++ (key ++ [paramDelim])).length := by
      simp [wordArgDelim]
    have htake : (wordArgDelim ++ (key ++ [paramDelim])).take 2 = wordArgDelim := by
      rw [show (2 : Nat) = wordArgDelim.length from rfl, List.take_left]
    have hdrop : (wordArgDelim ++ (key ++ [paramDelim])).drop 2 = key ++ [paramDelim] := by
      rw [show (2 : Nat) = wordArgDelim.length from rfl, List.drop_left]
    rw [parseStep_long ru handler st _ next? ⟨hlen, htake⟩, hdrop, hsp]
  · rw [splitCmd_no_delim key hnd]

/-- **C8 witness.** `--num=` splits into key `"num"` with the empty inline
parameter. -/
theorem empty_inline_value_witness :
    splitCmd (chars ("num") ++ [paramDelim]) = (chars ("num"), some []) :=
  ((empty_inline_value false (fun _ => ErrorResult.Continue) ⟨[], [], true, []⟩
    (chars ("num")) none).1 (by decide)).1

/-- **C10 counterexample.** The claim as stated says a token whose leading
characters form a valid number is coerced to that leading portion, with
rejection only when no leading digits parse at all.  `"0xg"` has the
parseable leading digit `0` (as a decimal it would read as `0`), yet the
code classifies it as a hex shape (`size > 2`, `0x` prefix) and then
rejects it because no hex digit follows the prefix. -/
theorem hex_prefix_with_no_digits_rejected :
    trySetSignedInteger (intMin 32) (intMax 32) (chars ("0xg")) = none ∧
    isDigitOf 10 '0' = true ∧
    fromCharsSigned (chars ("0xg")) 10 = (Errc.ok, 0) := by
  decide

/-- **C10 (amended).** Shape classification happens first; within the
chosen base, trailing non-digit characters are silently ignored: a
General-shaped token stores the value of its leading decimal digit run
(`"12abc"` stores 12, and the bare `"0x"` — too short to be a hex shape —
stores decimal 0); a Hex-shaped token stores the value of the hex digit
run after the prefix; an unsigned destination behaves the same; rejection
happens when no digit in the chosen base can be parsed at the parse
position (so `"0xg"` fails despite its leading `0`). -/
theorem trailing_characters_ignored :
    (∀ (lo hi : Int) (ds tail : List Char), ds ≠ [] →
      (∀ c ∈ ds, isDigitOf 10 c = true) →
      tail.head?.all (fun c => ! isDigitOf 10 c) = true →
      getNumericStringType (ds ++ tail) = NumericStringType.general →
      lo ≤ (natOfDigits 10 ds : Int) → (natOfDigits 10 ds : Int) ≤ hi →
      (natOfDigits 10 ds : Int) ≤ int64Max →
      trySetSignedInteger lo hi (ds ++ tail) = some (natOfDigits 10 ds)) ∧
    (∀ (lo hi : Int) (ds tail : List Char), ds ≠ [] →
      (∀ c ∈ ds, isDigitOf 16 c = true) →
      tail.head?.all (fun c => ! isDigitOf 16 c) = true →
      lo ≤ (natOfDigits 16 ds : Int) → (natOfDigits 16 ds : Int) ≤ hi →
      (natOfDigits 16 ds : Int) ≤ int64Max →
      trySetSignedInteger lo hi ('0' :: 'x' :: (ds ++ tail)) =
        some (natOfDigits 16 ds)) ∧
    (∀ (hi : Int) (ds tail : List Char), ds ≠ [] →
      (∀ c ∈ ds, isDigitOf 10 c = true) →
      tail.head?.all (fun c => ! isDigitOf 10 c) = true →
      getNumericStringType (ds ++ tail) = NumericStringType.general →
      (natOfDigits 10 ds : Int) ≤ hi → natOfDigits 10 ds ≤ uint64Max →
      trySetUnsignedInteger hi (ds ++ tail) = some (natOfDigits 10 ds)) ∧
    trySetSignedInteger (intMin 32) (intMax 32) (chars ("0x")) = some 0 := by
  have hclamp : ∀ lo hi v : Int, lo ≤ v → v ≤ hi →
      (if hi < v then hi else if v < lo then lo else v) = v := by
    intro lo hi v h1 h2
    rw [if_neg (not_lt.mpr h2), if_neg (not_lt.mpr h1)]
  refine ⟨?_, ?_, ?_, by decide⟩
  · intro lo hi ds tail hne hds htail hgen hlo hhi h64
    unfold trySetSignedInteger
    rw [hgen, fromCharsSigned_digit_run 10 ds tail hne hds htail h64]
    simp [trySetArithmeticResult, hclamp lo hi _ hlo hhi]
  · intro lo hi ds tail hne hds htail hlo hhi h64
    have hlen : ¬ (('0' :: 'x' :: (ds ++ tail)).length ≤ 2) := by
      cases ds with
      | nil => exact absurd rfl hne
      | cons d ds2 => simp
    have hgen : getNumericStringType ('0' :: 'x' :: (ds ++ tail)) =
        NumericStringType.hex := by
      unfold getNumericStringType
      rw [if_neg hlen]
      simp [isHexMark]
    unfold trySetSignedInteger
    rw [hgen]
    show (if (('0' :: 'x' :: (ds ++ tail)).drop 2).isEmpty = true then none
      else trySetArithmeticResult lo hi
        (fromCharsSigned (('0' :: 'x' :: (ds ++ tail)).drop 2) 16).2
        (fromCharsSigned (('0' :: 'x' :: (ds ++ tail)).drop 2) 16).1
        (decide ((('0' :: 'x' :: (ds ++ tail)).drop 2).head? = some '-'))) = _
    have hdrop : ('0' :: 'x' :: (ds ++ tail)).drop 2 = ds ++ tail := rfl
    rw [hdrop]
    have hemp : (ds ++ tail).isEmpty = false := by
      cases ds with
      | nil => exact absurd rfl hne
      | cons d ds2 => rfl
    rw [if_neg (by simp [hemp])]
    rw [fromCharsSigned_digit_run 16 ds tail hne hds htail h64]
    simp [trySetArithmeticResult, hclamp lo hi _ hlo hhi]
  · intro hi ds tail hne hds htail hgen hhi h64
    unfold trySetUnsignedInteger
    rw [hgen, fromCharsUnsigned_digit_run 10 ds tail hne hds htail h64]
    have h0 : (0 : Int) ≤ (natOfDigits 10 ds : Int) := Int.natCast_nonneg _
    simp [trySetArithmeticResult, hclamp 0 hi _ h0 hhi]

/-- **C10 witness.** `"12abc"` for an `int32` destination stores 12. -/
theorem trailing_characters_ignored_witness :
    trySetSignedInteger (intMin 32) (intMax 32) (chars ("12abc")) = some 12 := by
  have h := (trailing_characters_ignored).1 (intMin 32) (intMax 32)
    (chars ("12")) (chars ("abc")) (by decide) (by decide) (by decide) (by decide)
    (by decide) (by decide) (by decide)
  exact h

end CmdSpec
